import Mathlib

/-!
# calculator.cc : a shallow embedding of the validator and the recursive evaluator

The C++ program reads one line, wraps it in a `MathExpression`, validates it and
evaluates it by recursive string splitting (`calcExpression` / `calcRecursive`).

Modelling decisions

* `std::string` is a list of characters (`Str`); `std::string::npos` is `none`.
* `double` arithmetic is a parameter (`Arith`): the five operations the source uses
  (`+ - * /`, comparison with `0`) together with libc's `atof`.  Every general theorem
  holds for every such arithmetic, IEEE doubles included.  `exactArith` instantiates the
  parameter with exact rationals for the concrete expressions of the specification, all
  of whose intermediate values are small integers (on which `double` is exact).
  `roundedAtofArith` adds the rounding of `atof` to the nearest binary64 double, for the
  statements about leaves, where the exact value and the double differ.
* The global `illegal_calculation` and the text sent to `std::cout` are threaded through
  the evaluator as an explicit state (`Env`).  The state also carries a ghost log of the
  arguments of every `calcRecursive` invocation, in call order.
* A C++ function that reaches its closing brace without `return` has no value: the
  evaluator returns `Option`, with `none` for that case.
-/

namespace Calculator

/-- The type `std::string`: a finite sequence of characters. -/
abbrev Str := List Char

/-! ## Constants of the program -/

/-- Line 38: `supported_operations = {"+", "-", "*", "/"}`, a vector of one-character strings. -/
def supported_operations : List Str := [['+'], ['-'], ['*'], ['/']]

/-- Lines 39-41: `supported_characters`, the validation alphabet. -/
def supported_characters : List Char :=
  ['0', '1', '2', '3', '4', '5', '6', '7', '8', '9', '.', ' ', '+', '-', '*', '/']

/-- The predicate `isspace` of the C locale: space, `\t`, `\n`, `\v`, `\f`, `\r`. -/
def isspace (c : Char) : Bool :=
  c = ' ' || (9 ≤ c.toNat && c.toNat ≤ 13)

/-! ## Library string operations -/

/-- The call `str.find_first_of(chars)`: the index of the first character of `str` that
occurs in `chars`, `none` (npos) when there is none. -/
def find_first_of : Str → Str → Option Nat
  | [], _ => none
  | c :: cs, chars =>
    if c ∈ chars then some 0
    else match find_first_of cs chars with
      | none => none
      | some i => some (i + 1)

/-- The call `str.substr(pos, len)` (`len = none` is the default `npos`, "to the end").
The source only calls it with `pos ≤ str.size()` (see `nextOperatorPosition_lt`), where
the C++ function does not throw. -/
def substr (str : Str) (pos : Nat) (len : Option Nat) : Str :=
  match len with
  | none => str.drop pos
  | some n => (str.drop pos).take n

/-! ## Precedence scanner -/

/-- The `for(auto op : supported_operations)` loop of `nextOperatorPosition` (lines
108-113): `op_position` is overwritten by each search, and the loop is left at the first
search that succeeds. -/
def nextOperatorPositionLoop (str : Str) : List Str → Option Nat → Option Nat
  | [], op_position => op_position
  | op :: rest, _ =>
    match find_first_of str op with
    | some p => some p
    | none => nextOperatorPositionLoop str rest none

/-- Lines 104-115: `nextOperatorPosition`.  The local `op_position` is uninitialised before
the loop; the loop body runs at least once (the vector is not empty) and assigns it, so
the initial value given here is never returned. -/
def nextOperatorPosition (str : Str) : Option Nat :=
  nextOperatorPositionLoop str supported_operations none

/-! ## The `MathExpression` class -/

/-- The class `MathExpression` (lines 50-87): its only data member is the string `s`. -/
structure MathExpression where
  s : Str
deriving DecidableEq, Repr

namespace MathExpression

/-- The erase/remove_if idiom of lines 54-57 applied to a string: the string without its
`isspace` characters, the others in their original order. -/
def eraseRemoveIfIsspace (str : Str) : Str :=
  str.filter (fun c => !isspace c)

/-- Lines 53-58: `void removeWhiteSpaces(string str)`.  The parameter is taken BY VALUE, so
the erase/remove_if idiom rewrites the callee's private copy `str`; that copy is destroyed
on return and the function returns nothing. -/
def removeWhiteSpaces (str : Str) : Unit :=
  let _str := eraseRemoveIfIsspace str
  ()

/-- Line 60: the constructor `MathExpression(string str) : s(str) {removeWhiteSpaces(s);}`.
The member `s` is initialised with `str`, then `removeWhiteSpaces` is called with a copy
of `s`. -/
def construct (str : Str) : MathExpression :=
  let this : MathExpression := { s := str }
  let _ := removeWhiteSpaces this.s
  this

/-- Lines 61-63: `get()` returns the member `s`. -/
def get (this : MathExpression) : Str := this.s

/-- The text written by line 73. -/
def emptyInputMessage : Str := "\nError: You did not enter an input.\n".toList

/-- The text written by line 81 for the offending character `c`. -/
def invalidInputMessage (c : Char) : Str :=
  "\nError: ".toList ++ [c] ++ " is not valid input.\n".toList

/-- The `for(auto c : s)` loop of `isValid` (lines 76-85) over the remaining characters:
the result of the function and the output stream afterwards. -/
def isValidLoop (allowed_chars : List Char) : Str → List Str → Bool × List Str
  | [], cout => (true, cout)
  | c :: rest, cout =>
    if c ∈ allowed_chars then isValidLoop allowed_chars rest cout
    else (false, cout ++ [invalidInputMessage c])

/-- Lines 71-86: `isValid(allowed_chars)`.  `std::cout` is passed in and returned, one list
entry per output statement. -/
def isValid (this : MathExpression) (allowed_chars : List Char) (cout : List Str) :
    Bool × List Str :=
  if this.s = [] then (false, cout ++ [emptyInputMessage])
  else isValidLoop allowed_chars this.s cout

end MathExpression

/-! ## Evaluator state and arithmetic -/

/-- The state the evaluator reads and writes: the global `illegal_calculation` (line 43),
the output statements executed on `std::cout` so far, and a ghost log `calls` of the
arguments `(left, my_op, right)` of every `calcRecursive` invocation, in call order. -/
structure Env where
  illegal_calculation : Bool
  cout : List Str
  calls : List (Str × Str × Str)
deriving DecidableEq, Repr

/-- The `double` operations the evaluator uses: the constant `0`, the four arithmetic
operators, the test `x == 0`, and the library function `atof`. -/
structure Arith (α : Type) where
  zero : α
  add : α → α → α
  sub : α → α → α
  mul : α → α → α
  div : α → α → α
  eqZero : α → Bool
  atof : Str → α

/-- The text written by line 124. -/
def missingOperandMessage : Str := "\nError: Missing operand.\n".toList

/-- The text written by line 167. -/
def divisionByZeroMessage : Str := "\nError: Dividing by zero is not allowed.\n".toList

/-! ## Recursive evaluator -/

/-- Lines 155-175, "Do the calculation": the chain of `if(my_op == ...)` statements.  When
`my_op` is none of the four operator strings, control reaches the closing brace of
`calcRecursive` without a `return`: no value (`none`). -/
def doTheCalculation {α : Type} (A : Arith α) (my_op : Str) (left_d right_d : α) (st : Env) :
    Option α × Env :=
  if my_op = ['+'] then (some (A.add left_d right_d), st)
  else if my_op = ['-'] then (some (A.sub left_d right_d), st)
  else if my_op = ['*'] then (some (A.mul left_d right_d), st)
  else if my_op = ['/'] then
    if A.eqZero right_d then
      (some A.zero,
        { st with cout := st.cout ++ [divisionByZeroMessage], illegal_calculation := true })
    else (some (A.div left_d right_d), st)
  else (none, st)

/-- Lines 117-175: `calcRecursive`, with a recursion budget as first argument.  A budget
of `0` gives no value; `calcRecursive` below supplies a budget that is never exhausted
(`calcRecursiveFuel_stable`).  The implicit conversions of the `substr` results to
`MathExpression` at the recursive calls are the constructor calls. -/
def calcRecursiveFuel {α : Type} (A : Arith α) :
    Nat → MathExpression → Str → MathExpression → Env → Option α × Env
  | 0, _, _, _, st => (none, st)
  | fuel + 1, left, my_op, right, st =>
    let st := { st with calls := st.calls ++ [(left.get, my_op, right.get)] }
    if my_op ≠ [] ∧ (left.get = [] ∨ right.get = []) then
      (some A.zero,
        { st with cout := st.cout ++ [missingOperandMessage], illegal_calculation := true })
    else
      let l : Option α × Env :=
        match nextOperatorPosition left.get with
        | none => (some (A.atof left.get), st)
        | some op_pos =>
          calcRecursiveFuel A fuel
            (MathExpression.construct (substr left.get 0 (some op_pos)))
            (substr left.get op_pos (some 1))
            (MathExpression.construct (substr left.get (op_pos + 1) none)) st
      let r : Option α × Env :=
        match nextOperatorPosition right.get with
        | none => (some (A.atof right.get), l.2)
        | some op_pos =>
          calcRecursiveFuel A fuel
            (MathExpression.construct (substr right.get 0 (some op_pos)))
            (substr right.get op_pos (some 1))
            (MathExpression.construct (substr right.get (op_pos + 1) none)) l.2
      match l.1, r.1 with
      | some left_d, some right_d => doTheCalculation A my_op left_d right_d r.2
      | _, _ => (none, r.2)

/-- Lines 117-175: `calcRecursive(left, my_op, right)`.  Every recursive call is on two
pieces of one operand with one character removed, so a budget of one more than the
total length of the two operands is never used up. -/
def calcRecursive {α : Type} (A : Arith α) (left : MathExpression) (my_op : Str)
    (right : MathExpression) (st : Env) : Option α × Env :=
  calcRecursiveFuel A (left.get.length + right.get.length + 1) left my_op right st

/-- Lines 177-191: `calcExpression(expr)`. -/
def calcExpression {α : Type} (A : Arith α) (expr : MathExpression) (st : Env) :
    Option α × Env :=
  match nextOperatorPosition expr.get with
  | none => (some (A.atof expr.get), st)
  | some op_pos =>
    calcRecursive A
      (MathExpression.construct (substr expr.get 0 (some op_pos)))
      (substr expr.get op_pos (some 1))
      (MathExpression.construct (substr expr.get (op_pos + 1) none)) st

/-- The block that both "Parse the first argument" (lines 129-140) and "Parse the second
argument" (lines 142-153) of `calcRecursive` and the body of `calcExpression` (lines
182-190) consist of, with the function that is called on the three pieces as a
parameter.  Used to state the recursion equations below; the evaluator itself is defined
without it. -/
def parseArgument {α : Type} (A : Arith α)
    (call : MathExpression → Str → MathExpression → Env → Option α × Env)
    (expr : MathExpression) (st : Env) : Option α × Env :=
  match nextOperatorPosition expr.get with
  | none => (some (A.atof expr.get), st)
  | some op_pos =>
    call (MathExpression.construct (substr expr.get 0 (some op_pos)))
      (substr expr.get op_pos (some 1))
      (MathExpression.construct (substr expr.get (op_pos + 1) none)) st

/-- The state in which `main` starts an evaluation (line 228 clears the flag); the output
and the call log are counted from that point. -/
def Env.initial : Env := { illegal_calculation := false, cout := [], calls := [] }

/-- The state `st2` is a later state of `st1`: a set flag is still set, and the output
and the call log have only been appended to. -/
def Env.Extends (st1 st2 : Env) : Prop :=
  (st1.illegal_calculation = true → st2.illegal_calculation = true) ∧
    st1.cout <+: st2.cout ∧ st1.calls <+: st2.calls

/-- A valid non-negative decimal literal: a non-empty string of digits with at most one
`.` in it. -/
def isLiteral (str : Str) : Bool :=
  !str.isEmpty && str.all (fun c => c.isDigit || c == '.') && decide (str.count '.' ≤ 1)

/-- The decimal value of a string of digits, most significant digit first. -/
def decimalValue (str : Str) : Nat :=
  str.foldl (fun acc c => 10 * acc + (c.toNat - 48)) 0

/-- One of the four operator characters `+ - * /`. -/
def isOperator (c : Char) : Prop := c = '+' ∨ c = '-' ∨ c = '*' ∨ c = '/'

/-- The string begins with an operator, ends with an operator, or has two adjacent
operator characters. -/
def Malformed (str : Str) : Prop :=
  (∃ c t, str = c :: t ∧ isOperator c) ∨
  (∃ t c, str = t ++ [c] ∧ isOperator c) ∨
  (∃ u c d v, str = u ++ c :: d :: v ∧ isOperator c ∧ isOperator d)

/-- Between the states `st` and `st2` a missing operand was signalled: the flag is set in
`st2`, the missing-operand message was printed after `st`, and a `calcRecursive` call
made after `st` had a non-empty operator string and an empty left or right operand. -/
def Env.MissingOperandSince (st st2 : Env) : Prop :=
  st2.illegal_calculation = true ∧
  missingOperandMessage ∈ st2.cout.drop st.cout.length ∧
  ∃ l op r, (l, op, r) ∈ st2.calls.drop st.calls.length ∧ op ≠ [] ∧ (l = [] ∨ r = [])

/-- One invocation of `calcRecursive`: its three arguments and the state it starts in. -/
structure Invocation where
  left : MathExpression
  my_op : Str
  right : MathExpression
  st : Env

/-- The result of the invocation. -/
def Invocation.run {α : Type} (A : Arith α) (c : Invocation) : Option α × Env :=
  calcRecursive A c.left c.my_op c.right c.st

/-- The state of the invocation once it has logged itself. -/
def Invocation.entry (c : Invocation) : Env :=
  { c.st with calls := c.st.calls ++ [(c.left.get, c.my_op, c.right.get)] }

/-- The relation `DirectCall A c d`: the body of the invocation `c` makes the invocation
`d`.  An invocation that passes the missing-operand check calls `calcRecursive` on the
pieces of its left operand (line 137), when that operand has an operator, in the state
after logging; and on the pieces of its right operand (line 150), when that one has an
operator, in the state in which the evaluation of the left operand ended. -/
inductive DirectCall {α : Type} (A : Arith α) : Invocation → Invocation → Prop
  | left (c : Invocation) (op_pos : Nat)
      (hpass : ¬ (c.my_op ≠ [] ∧ (c.left.get = [] ∨ c.right.get = [])))
      (hpos : nextOperatorPosition c.left.get = some op_pos) :
      DirectCall A c
        { left := MathExpression.construct (substr c.left.get 0 (some op_pos)),
          my_op := substr c.left.get op_pos (some 1),
          right := MathExpression.construct (substr c.left.get (op_pos + 1) none),
          st := c.entry }
  | right (c : Invocation) (op_pos : Nat)
      (hpass : ¬ (c.my_op ≠ [] ∧ (c.left.get = [] ∨ c.right.get = [])))
      (hpos : nextOperatorPosition c.right.get = some op_pos) :
      DirectCall A c
        { left := MathExpression.construct (substr c.right.get 0 (some op_pos)),
          my_op := substr c.right.get op_pos (some 1),
          right := MathExpression.construct (substr c.right.get (op_pos + 1) none),
          st := (calcExpression A c.left c.entry).2 }

/-! ## Exact arithmetic for the concrete expressions -/

/-- Reads the maximal run of decimal digits at the head of a string: the number read so
far, how many digits were read, and the unread rest. -/
def readDigits : Str → Nat → Nat → Nat × Nat × Str
  | [], acc, n => (acc, n, [])
  | c :: cs, acc, n =>
    if c.isDigit then readDigits cs (10 * acc + (c.toNat - 48)) (n + 1)
    else (acc, n, c :: cs)

/-- The library function `atof` (`strtod` of the C locale) on decimal fixed-point input,
with an exact rational result: leading `isspace` characters are skipped, an optional sign
is read, then the longest run of digits with at most one `.` in it; when that run has no
digit the result is `0`.  The exponent, hexadecimal, `inf` and `nan` forms of `strtod`
all need a letter, which no string over `supported_characters` has, and are not
modelled; rounding to the nearest `double` is not modelled either. -/
def atofExact (str : Str) : ℚ :=
  let body := str.dropWhile isspace
  let signed : Bool × Str :=
    match body with
    | '-' :: t => (true, t)
    | '+' :: t => (false, t)
    | _ => (false, body)
  let ip := readDigits signed.2 0 0
  let fp : Nat × Nat :=
    match ip.2.2 with
    | '.' :: t => ((readDigits t 0 0).1, (readDigits t 0 0).2.1)
    | _ => (0, 0)
  if ip.2.1 + fp.2 = 0 then 0
  else
    let v : ℚ := (ip.1 : ℚ) + (fp.1 : ℚ) / (10 : ℚ) ^ fp.2
    if signed.1 then -v else v

/-- Exact rational arithmetic in place of `double`. -/
def exactArith : Arith ℚ where
  zero := 0
  add := fun x y => x + y
  sub := fun x y => x - y
  mul := fun x y => x * y
  div := fun x y => x / y
  eqZero := fun x => decide (x = 0)
  atof := atofExact

/-! ## Quit detection and the handling of one input line -/

/-- The call `str.find(pat)`: the index at which the first occurrence of the substring
`pat` in `str` starts, `none` (npos) when there is none. -/
def find : Str → Str → Option Nat
  | [], pat => if pat = [] then some 0 else none
  | c :: cs, pat =>
    if pat.isPrefixOf (c :: cs) then some 0
    else match find cs pat with
      | none => none
      | some i => some (i + 1)

/-- Lines 64-70: `quitFlag()`. -/
def MathExpression.quitFlag (this : MathExpression) : Bool :=
  if find this.s ['q'] ≠ none ∨ find this.s ['Q'] ≠ none then true else false

/-- What `main` does with one input line. -/
inductive LineOutcome (α : Type) where
  | quit : LineOutcome α
  | reprompt : LineOutcome α
  | evaluated (result : Option α) (st : Env) : LineOutcome α

/-- Lines 209-236 of `main` for one line `user_input`: the quit check, the validity check
(an invalid line is prompted for again), and for a valid line the evaluation, started
with the flag cleared (line 228). -/
def mainLine {α : Type} (A : Arith α) (user_input : Str) : LineOutcome α :=
  if (MathExpression.construct user_input).quitFlag then LineOutcome.quit
  else if ((MathExpression.construct user_input).isValid supported_characters []).1 then
    LineOutcome.evaluated
      (calcExpression A (MathExpression.construct user_input) Env.initial).1
      (calcExpression A (MathExpression.construct user_input) Env.initial).2
  else LineOutcome.reprompt

/-! ## Notions used in the statements -/

/-- The place of a character in `supported_operations`: 0 for `+`, 1 for `-`, 2 for `*`,
3 for `/`, and 4 for a character that is no operator. -/
def opRank (c : Char) : Nat :=
  if c = '+' then 0 else if c = '-' then 1 else if c = '*' then 2 else if c = '/' then 3
  else 4

/-- The arithmetic operation an operator character stands for (for a character that is
no operator, the left argument). -/
def applyOp {α : Type} (A : Arith α) (c : Char) (x y : α) : α :=
  if c = '+' then A.add x y else if c = '-' then A.sub x y
  else if c = '*' then A.mul x y else if c = '/' then A.div x y else x

/-- The state `st` after the changes `d` that an evaluation makes when it is started in
the cleared, empty state: the flag is set if it was set or the evaluation sets it, the
output and the call log are appended. -/
def Env.append (st d : Env) : Env :=
  { illegal_calculation := st.illegal_calculation || d.illegal_calculation,
    cout := st.cout ++ d.cout,
    calls := st.calls ++ d.calls }

/-- The Boolean test for an operator character. -/
def isOperatorChar (c : Char) : Bool :=
  c == '+' || c == '-' || c == '*' || c == '/'

/-- The number of operator characters in a string. -/
def operatorCount (str : Str) : Nat := str.countP isOperatorChar

/-- The relation `NestedAtDepth A n c d`: the invocation `d` is reached from the invocation
`c` through a chain of `n` nested invocations, `c` and `d` included (`c` itself is at
depth 1). -/
inductive NestedAtDepth {α : Type} (A : Arith α) : Nat → Invocation → Invocation → Prop
  | top (c : Invocation) : NestedAtDepth A 1 c c
  | step {n : Nat} {c d e : Invocation} :
      NestedAtDepth A n c d → DirectCall A d e → NestedAtDepth A (n + 1) c e

/-- A well-formed expression: non-empty literals of digits and `.` separated by single
operators; that is, a non-empty string of digits, `.` and operators that does not begin
or end with an operator and has no two adjacent operators. -/
def WellFormed (str : Str) : Prop :=
  str ≠ [] ∧ (∀ c ∈ str, c.isDigit = true ∨ c = '.' ∨ isOperator c) ∧ ¬ Malformed str

/-! ## The reference evaluator of the four-level grammar -/

/-- One level of the reference grammar, for the operator `c` with operation `f`: the
string `acc ++ str`, of which `acc` is known to be free of `c`, is cut at the first `c`
of `str` into a head, evaluated by the next level `lower`, and a rest, evaluated by this
level again; a string without `c` is passed to the next level whole. -/
def refCut {α : Type} (lower : Str → α) (f : α → α → α) (c : Char) : Str → Str → α
  | acc, [] => lower acc
  | acc, x :: xs =>
    if x = c then f (lower acc) (refCut lower f c [] xs)
    else refCut lower f c (acc ++ [x]) xs

/-- The reference evaluator for a list of levels, loosest-binding operator first; below
the last level a string is a literal, read by `atof`. -/
def refLevel {α : Type} (A : Arith α) : List Char → Str → α
  | [], str => A.atof str
  | c :: ops, str => refCut (refLevel A ops) (applyOp A c) c [] str

/-- The reference evaluator: the string is cut at its first `+` into head `+` rest, a
string without `+` at its first `-`, a string without `+` and `-` at its first `*`, a
string with `/` only at its first `/`; every level groups to the right. -/
def referenceEvaluator {α : Type} (A : Arith α) (str : Str) : α :=
  refLevel A ['+', '-', '*', '/'] str

/-- The string has two adjacent operator characters. -/
def hasAdjacentOperators : Str → Bool
  | [] => false
  | [_] => false
  | a :: b :: rest =>
    (isOperatorChar a && isOperatorChar b) || hasAdjacentOperators (b :: rest)

/-- A test for well-formed expressions. -/
def wellFormedCheck (str : Str) : Bool :=
  !str.isEmpty && str.all (fun c => c.isDigit || c == '.' || isOperatorChar c) &&
    !(str.head?.any isOperatorChar) && !(str.getLast?.any isOperatorChar) &&
    !hasAdjacentOperators str

/-! ## The rounding of `atof` to a binary64 double -/

/-- The parse of `atofExact`, as a sign, a numerator and a denominator (a power of ten):
leading `isspace` characters are skipped, an optional sign is read, then the longest run
of digits with at most one `.` in it; without a digit the result is `+0/1`. -/
def atofParts (str : Str) : Bool × Nat × Nat :=
  let body := str.dropWhile isspace
  let signed : Bool × Str :=
    match body with
    | '-' :: t => (true, t)
    | '+' :: t => (false, t)
    | _ => (false, body)
  let ip := readDigits signed.2 0 0
  let fp : Nat × Nat :=
    match ip.2.2 with
    | '.' :: t => ((readDigits t 0 0).1, (readDigits t 0 0).2.1)
    | _ => (0, 0)
  if ip.2.1 + fp.2 = 0 then (false, 0, 1)
  else (signed.1, ip.1 * 10 ^ fp.2 + fp.1, 10 ^ fp.2)

/-- Scales the ratio `num / den` by powers of two, counting them in `e`, until its
integer part has exactly 53 binary digits: the result `(num2, den2, e2)` has
`num / den * 2 ^ e = num2 / den2 * 2 ^ e2` and `2 ^ 52 ≤ num2 / den2 < 2 ^ 53`.  The first
argument bounds the number of steps. -/
def normalizeRatio : Nat → Nat → Nat → Int → Nat × Nat × Int
  | 0, num, den, e => (num, den, e)
  | fuel + 1, num, den, e =>
    if 2 ^ 53 ≤ num / den then normalizeRatio fuel num (2 * den) (e + 1)
    else if num / den < 2 ^ 52 then normalizeRatio fuel (2 * num) den (e - 1)
    else (num, den, e)

/-- The integer nearest to `num / den`, the even one of the two when `num / den` lies
half-way between two integers. -/
def roundedSignificand (num den : Nat) : Nat :=
  if 2 * (num % den) < den then num / den
  else if den < 2 * (num % den) then num / den + 1
  else if (num / den) % 2 = 0 then num / den
  else num / den + 1

/-- The binary64 double nearest to `n / d` (round to nearest, ties to even, 53-bit
significand), as a rational, for `n / d` zero or in the range of the normal doubles;
overflow to infinity and the subnormal doubles are not modelled. -/
def binary64Value (n d : Nat) : ℚ :=
  if n = 0 then 0
  else
    ((roundedSignificand (normalizeRatio 2200 n d 0).1 (normalizeRatio 2200 n d 0).2.1 : Nat) : ℚ)
      * (2 : ℚ) ^ (normalizeRatio 2200 n d 0).2.2

/-- The library function `atof` with its rounding: the binary64 double nearest to the
number that `atofParts` reads, as `strtod` returns it. -/
def atofBinary64 (str : Str) : ℚ :=
  if (atofParts str).1 then -binary64Value (atofParts str).2.1 (atofParts str).2.2
  else binary64Value (atofParts str).2.1 (atofParts str).2.2

/-- The arithmetic `exactArith` with `atof` rounded to binary64.  Its four operations
are still exact, so it stands for `double` only where no operation is performed: on
leaves. -/
def roundedAtofArith : Arith ℚ :=
  { exactArith with atof := atofBinary64 }

/-! # Properties -/

/-! ## The string searches -/

theorem find_first_of_eq_none (str chars : Str) :
    find_first_of str chars = none ↔ ∀ x ∈ str, x ∉ chars := by
  induction str with
  | nil => simp [find_first_of]
  | cons c cs ih =>
    by_cases hc : c ∈ chars
    · simp [find_first_of, hc]
    · cases h : find_first_of cs chars with
      | none => simpa [find_first_of, hc, h] using ih.mp h
      | some i =>
        have hne : ¬ ∀ x ∈ cs, x ∉ chars := fun hall => by
          rw [ih.mpr hall] at h; cases h
        simpa [find_first_of, hc, h] using hne

theorem find_first_of_eq_some (str chars : Str) (p : Nat)
    (h : find_first_of str chars = some p) :
    p < str.length ∧ (∃ x, str[p]? = some x ∧ x ∈ chars) ∧
      ∀ i, i < p → ∀ y, str[i]? = some y → y ∉ chars := by
  induction str generalizing p with
  | nil => simp [find_first_of] at h
  | cons c cs ih =>
    by_cases hc : c ∈ chars
    · simp [find_first_of, hc] at h
      subst h
      simp [hc]
    · cases hq : find_first_of cs chars with
      | none => simp [find_first_of, hc, hq] at h
      | some q =>
        simp [find_first_of, hc, hq] at h
        subst h
        obtain ⟨h1, h2, h3⟩ := ih q hq
        refine ⟨by simpa using h1, by simpa using h2, ?_⟩
        intro i hi y hy
        cases i with
        | zero => simp at hy; subst hy; exact hc
        | succ j => exact h3 j (by omega) y (by simpa using hy)

/-- The scanner written out as the cascade of its four searches. -/
theorem nextOperatorPosition_cascade (str : Str) :
    nextOperatorPosition str =
      match find_first_of str ['+'] with
      | some p => some p
      | none =>
        match find_first_of str ['-'] with
        | some p => some p
        | none =>
          match find_first_of str ['*'] with
          | some p => some p
          | none => find_first_of str ['/'] := by
  simp only [nextOperatorPosition, supported_operations, nextOperatorPositionLoop]
  cases find_first_of str ['+'] <;> simp
  cases find_first_of str ['-'] <;> simp
  cases find_first_of str ['*'] <;> simp
  cases find_first_of str ['/'] <;> simp

/-- The scanner finds nothing exactly when the string has no operator character. -/
theorem nextOperatorPosition_eq_none (str : Str) :
    nextOperatorPosition str = none ↔
      ∀ c ∈ str, c ≠ '+' ∧ c ≠ '-' ∧ c ≠ '*' ∧ c ≠ '/' := by
  rw [nextOperatorPosition_cascade]
  constructor
  · intro h
    cases h1 : find_first_of str ['+'] with
    | some p => simp [h1] at h
    | none =>
      cases h2 : find_first_of str ['-'] with
      | some p => simp [h1, h2] at h
      | none =>
        cases h3 : find_first_of str ['*'] with
        | some p => simp [h1, h2, h3] at h
        | none =>
          simp [h1, h2, h3] at h
          rw [find_first_of_eq_none] at h1 h2 h3 h
          intro c hc
          exact ⟨by simpa using h1 c hc, by simpa using h2 c hc, by simpa using h3 c hc,
            by simpa using h c hc⟩
  · intro h
    have e1 : find_first_of str ['+'] = none :=
      (find_first_of_eq_none _ _).mpr fun x hx => by simpa using (h x hx).1
    have e2 : find_first_of str ['-'] = none :=
      (find_first_of_eq_none _ _).mpr fun x hx => by simpa using (h x hx).2.1
    have e3 : find_first_of str ['*'] = none :=
      (find_first_of_eq_none _ _).mpr fun x hx => by simpa using (h x hx).2.2.1
    have e4 : find_first_of str ['/'] = none :=
      (find_first_of_eq_none _ _).mpr fun x hx => by simpa using (h x hx).2.2.2
    simp [e1, e2, e3, e4]

/-- What the scanner returns when it finds an operator: which search of the cascade
succeeded (`k`, with operator character `c`), that the earlier operators are absent, and
that the position is the leftmost occurrence of `c`. -/
theorem nextOperatorPosition_eq_some (str : Str) (p : Nat)
    (h : nextOperatorPosition str = some p) :
    ∃ (k : Nat) (c : Char), supported_operations[k]? = some [c] ∧
      (∀ (j : Nat) (d : Char), j < k → supported_operations[j]? = some [d] → d ∉ str) ∧
      p < str.length ∧ str[p]? = some c ∧ ∀ i, i < p → str[i]? ≠ some c := by
  rw [nextOperatorPosition_cascade] at h
  have key : ∀ (c : Char) (q : Nat), find_first_of str [c] = some q →
      q < str.length ∧ str[q]? = some c ∧ ∀ i, i < q → str[i]? ≠ some c := by
    intro c q hq
    obtain ⟨h1, ⟨x, hx, hxc⟩, h3⟩ := find_first_of_eq_some str [c] q hq
    have : x = c := by simpa using hxc
    subst this
    exact ⟨h1, hx, fun i hi hi2 => h3 i hi x hi2 (by simp)⟩
  have absent : ∀ c : Char, find_first_of str [c] = none → c ∉ str := by
    intro c hc hmem
    exact (find_first_of_eq_none str [c]).mp hc c hmem (by simp)
  cases h1 : find_first_of str ['+'] with
  | some q =>
    simp [h1] at h; subst h
    refine ⟨0, '+', by simp [supported_operations], ?_, key _ _ h1⟩
    intro j d hj; omega
  | none =>
    cases h2 : find_first_of str ['-'] with
    | some q =>
      simp [h1, h2] at h; subst h
      refine ⟨1, '-', by simp [supported_operations], ?_, key _ _ h2⟩
      intro j d hj hd
      have hj0 : j = 0 := by omega
      subst hj0
      simp [supported_operations] at hd
      subst hd; exact absent _ h1
    | none =>
      cases h3 : find_first_of str ['*'] with
      | some q =>
        simp [h1, h2, h3] at h; subst h
        refine ⟨2, '*', by simp [supported_operations], ?_, key _ _ h3⟩
        intro j d hj hd
        have hj0 : j = 0 ∨ j = 1 := by omega
        rcases hj0 with hj0 | hj0 <;> subst hj0 <;> simp [supported_operations] at hd <;>
          subst hd
        · exact absent _ h1
        · exact absent _ h2
      | none =>
        simp [h1, h2, h3] at h
        refine ⟨3, '/', by simp [supported_operations], ?_, key _ _ h⟩
        intro j d hj hd
        have hj0 : j = 0 ∨ j = 1 ∨ j = 2 := by omega
        rcases hj0 with hj0 | hj0 | hj0 <;> subst hj0 <;>
          simp [supported_operations] at hd <;> subst hd
        · exact absent _ h1
        · exact absent _ h2
        · exact absent _ h3

/-- The position returned by the scanner is inside the string and holds an operator. -/
theorem nextOperatorPosition_lt (str : Str) (p : Nat)
    (h : nextOperatorPosition str = some p) :
    p < str.length ∧
      ∃ c, str[p]? = some c ∧ (c = '+' ∨ c = '-' ∨ c = '*' ∨ c = '/') := by
  obtain ⟨k, c, hk, -, hp, hc, -⟩ := nextOperatorPosition_eq_some str p h
  refine ⟨hp, c, hc, ?_⟩
  have hk4 : k < 4 := by
    by_contra hge
    have : supported_operations[k]? = none := by
      apply List.getElem?_eq_none; simp [supported_operations]; omega
    rw [this] at hk; cases hk
  have : k = 0 ∨ k = 1 ∨ k = 2 ∨ k = 3 := by omega
  rcases this with e | e | e | e <;> subst e <;> simp [supported_operations] at hk <;>
    simp [← hk]

/-- C1 : `nextOperatorPosition str` is npos exactly when `str` has none of `+ - * /`;
otherwise it is the index of the leftmost occurrence of the first operator, in the order
of `supported_operations`, that occurs in `str`: the index is inside the string, the
character there is that operator, no earlier operator of the list occurs anywhere in
`str`, and no earlier position holds that operator. -/
theorem C1_nextOperatorPosition (str : Str) :
    (nextOperatorPosition str = none ↔
        ∀ c ∈ str, c ≠ '+' ∧ c ≠ '-' ∧ c ≠ '*' ∧ c ≠ '/') ∧
    (∀ p, nextOperatorPosition str = some p →
      ∃ (k : Nat) (c : Char), supported_operations[k]? = some [c] ∧
        (∀ (j : Nat) (d : Char), j < k → supported_operations[j]? = some [d] → d ∉ str) ∧
        p < str.length ∧ str[p]? = some c ∧ ∀ i, i < p → str[i]? ≠ some c) :=
  ⟨nextOperatorPosition_eq_none str, nextOperatorPosition_eq_some str⟩

/-! ## Recursion equations of the evaluator -/

@[simp] theorem MathExpression.get_construct (str : Str) :
    (MathExpression.construct str).get = str := rfl

@[simp] theorem MathExpression.get_mk (str : Str) :
    (MathExpression.mk str).get = str := rfl

theorem MathExpression.construct_eq (str : Str) :
    MathExpression.construct str = { s := str } := rfl

/-- The two pieces of a split are together one character shorter than the string. -/
theorem split_length (str : Str) (p : Nat) (hp : p < str.length) :
    (substr str 0 (some p)).length + (substr str (p + 1) none).length + 1 = str.length := by
  simp only [substr, List.drop_zero, List.length_take, List.length_drop]
  omega

/-- One step of the budgeted evaluator, in terms of `parseArgument`. -/
theorem calcRecursiveFuel_succ {α : Type} (A : Arith α) (fuel : Nat)
    (left : MathExpression) (my_op : Str) (right : MathExpression) (st : Env) :
    calcRecursiveFuel A (fuel + 1) left my_op right st =
      if my_op ≠ [] ∧ (left.get = [] ∨ right.get = []) then
        (some A.zero,
          { illegal_calculation := true,
            cout := st.cout ++ [missingOperandMessage],
            calls := st.calls ++ [(left.get, my_op, right.get)] })
      else
        match (parseArgument A (calcRecursiveFuel A fuel) left
                { st with calls := st.calls ++ [(left.get, my_op, right.get)] }).1,
              (parseArgument A (calcRecursiveFuel A fuel) right
                (parseArgument A (calcRecursiveFuel A fuel) left
                  { st with calls := st.calls ++ [(left.get, my_op, right.get)] }).2).1 with
        | some left_d, some right_d =>
          doTheCalculation A my_op left_d right_d
            (parseArgument A (calcRecursiveFuel A fuel) right
              (parseArgument A (calcRecursiveFuel A fuel) left
                { st with calls := st.calls ++ [(left.get, my_op, right.get)] }).2).2
        | _, _ =>
          (none, (parseArgument A (calcRecursiveFuel A fuel) right
              (parseArgument A (calcRecursiveFuel A fuel) left
                { st with calls := st.calls ++ [(left.get, my_op, right.get)] }).2).2) := by
  rfl

theorem calcExpression_eq_parseArgument {α : Type} (A : Arith α) (expr : MathExpression)
    (st : Env) : calcExpression A expr st = parseArgument A (calcRecursive A) expr st := rfl

/-- Two callees that agree on every pair of operands shorter than `expr` give the same
`parseArgument`. -/
theorem parseArgument_congr {α : Type} (A : Arith α)
    (f g : MathExpression → Str → MathExpression → Env → Option α × Env)
    (expr : MathExpression)
    (h : ∀ (l : MathExpression) (op : Str) (r : MathExpression) (st : Env),
      l.get.length + r.get.length + 1 ≤ expr.get.length → f l op r st = g l op r st)
    (st : Env) : parseArgument A f expr st = parseArgument A g expr st := by
  unfold parseArgument
  cases hp : nextOperatorPosition expr.get with
  | none => rfl
  | some p =>
    have hlt := (nextOperatorPosition_lt _ _ hp).1
    exact h _ _ _ _ (by simpa using le_of_eq (split_length _ _ hlt))

/-- A budget above the total length of the operands is never exhausted: the result
does not depend on it. -/
theorem calcRecursiveFuel_stable {α : Type} (A : Arith α) :
    ∀ (n m : Nat) (left : MathExpression) (my_op : Str) (right : MathExpression) (st : Env),
      left.get.length + right.get.length + 1 ≤ n →
      left.get.length + right.get.length + 1 ≤ m →
      calcRecursiveFuel A n left my_op right st = calcRecursiveFuel A m left my_op right st := by
  intro n
  induction n with
  | zero => intro m left my_op right st hn; omega
  | succ n ih =>
    intro m left my_op right st hn hm
    cases m with
    | zero => omega
    | succ m =>
      have hL : ∀ st, parseArgument A (calcRecursiveFuel A n) left st =
          parseArgument A (calcRecursiveFuel A m) left st := fun st =>
        parseArgument_congr A _ _ left (fun l op r st hlen => ih m l op r st (by omega) (by omega)) st
      have hR : ∀ st, parseArgument A (calcRecursiveFuel A n) right st =
          parseArgument A (calcRecursiveFuel A m) right st := fun st =>
        parseArgument_congr A _ _ right (fun l op r st hlen => ih m l op r st (by omega) (by omega)) st
      rw [calcRecursiveFuel_succ, calcRecursiveFuel_succ]
      simp only [hL, hR]

/-- The recursive calls made inside `calcRecursive` are `calcExpression` on each operand. -/
theorem parseArgument_fuel_eq {α : Type} (A : Arith α) (n : Nat) (expr : MathExpression)
    (hn : expr.get.length ≤ n) (st : Env) :
    parseArgument A (calcRecursiveFuel A n) expr st = calcExpression A expr st := by
  rw [calcExpression_eq_parseArgument]
  apply parseArgument_congr
  intro l op r st hlen
  exact calcRecursiveFuel_stable A _ _ l op r st (by omega) (le_refl _)

/-- The recursion equation of `calcRecursive`, as the source states it: log the call;
return `0` with the flag set on a missing operand; otherwise evaluate the left operand,
then the right operand (each as `calcExpression` does), then combine. -/
theorem calcRecursive_eq {α : Type} (A : Arith α)
    (left : MathExpression) (my_op : Str) (right : MathExpression) (st : Env) :
    calcRecursive A left my_op right st =
      if my_op ≠ [] ∧ (left.get = [] ∨ right.get = []) then
        (some A.zero,
          { illegal_calculation := true,
            cout := st.cout ++ [missingOperandMessage],
            calls := st.calls ++ [(left.get, my_op, right.get)] })
      else
        match (calcExpression A left
                { st with calls := st.calls ++ [(left.get, my_op, right.get)] }).1,
              (calcExpression A right
                (calcExpression A left
                  { st with calls := st.calls ++ [(left.get, my_op, right.get)] }).2).1 with
        | some left_d, some right_d =>
          doTheCalculation A my_op left_d right_d
            (calcExpression A right
              (calcExpression A left
                { st with calls := st.calls ++ [(left.get, my_op, right.get)] }).2).2
        | _, _ =>
          (none, (calcExpression A right
              (calcExpression A left
                { st with calls := st.calls ++ [(left.get, my_op, right.get)] }).2).2) := by
  unfold calcRecursive
  rw [calcRecursiveFuel_succ]
  have hL : ∀ st, parseArgument A
      (calcRecursiveFuel A (left.get.length + right.get.length)) left st =
      calcExpression A left st := fun st => parseArgument_fuel_eq A _ left (by omega) st
  have hR : ∀ st, parseArgument A
      (calcRecursiveFuel A (left.get.length + right.get.length)) right st =
      calcExpression A right st := fun st => parseArgument_fuel_eq A _ right (by omega) st
  simp only [hL, hR]

/-- The equation of `calcExpression`: a leaf is parsed by `atof`, anything else is split
at the scanner position. -/
theorem calcExpression_leaf {α : Type} (A : Arith α) (expr : MathExpression) (st : Env)
    (h : nextOperatorPosition expr.get = none) :
    calcExpression A expr st = (some (A.atof expr.get), st) := by
  simp [calcExpression, h]

theorem calcExpression_split {α : Type} (A : Arith α) (expr : MathExpression) (st : Env)
    (p : Nat) (h : nextOperatorPosition expr.get = some p) :
    calcExpression A expr st =
      calcRecursive A { s := expr.get.take p } ((expr.get.drop p).take 1)
        { s := expr.get.drop (p + 1) } st := by
  simp [calcExpression, h, substr, MathExpression.construct_eq]

/-! ## The state only grows -/

theorem Env.Extends.refl (st : Env) : Env.Extends st st :=
  ⟨id, List.prefix_refl _, List.prefix_refl _⟩

theorem Env.Extends.trans {st1 st2 st3 : Env} (h12 : Env.Extends st1 st2)
    (h23 : Env.Extends st2 st3) : Env.Extends st1 st3 :=
  ⟨fun h => h23.1 (h12.1 h), h12.2.1.trans h23.2.1, h12.2.2.trans h23.2.2⟩

theorem doTheCalculation_extends {α : Type} (A : Arith α) (my_op : Str) (l r : α) (st : Env) :
    Env.Extends st (doTheCalculation A my_op l r st).2 := by
  unfold doTheCalculation
  split_ifs <;> first
    | exact Env.Extends.refl st
    | exact ⟨fun _ => rfl, List.prefix_append _ _, List.prefix_refl _⟩

theorem parseArgument_extends {α : Type} (A : Arith α)
    (call : MathExpression → Str → MathExpression → Env → Option α × Env)
    (h : ∀ l op r st, Env.Extends st (call l op r st).2)
    (expr : MathExpression) (st : Env) :
    Env.Extends st (parseArgument A call expr st).2 := by
  unfold parseArgument
  cases nextOperatorPosition expr.get with
  | none => exact Env.Extends.refl st
  | some p => exact h _ _ _ _

theorem calcRecursiveFuel_extends {α : Type} (A : Arith α) :
    ∀ (n : Nat) (left : MathExpression) (my_op : Str) (right : MathExpression) (st : Env),
      Env.Extends st (calcRecursiveFuel A n left my_op right st).2 := by
  intro n
  induction n with
  | zero => intro left my_op right st; exact Env.Extends.refl st
  | succ n ih =>
    intro left my_op right st
    rw [calcRecursiveFuel_succ]
    have h0 : Env.Extends st { st with calls := st.calls ++ [(left.get, my_op, right.get)] } :=
      ⟨id, List.prefix_refl _, List.prefix_append _ _⟩
    split_ifs with hmiss
    · exact ⟨fun _ => rfl, List.prefix_append _ _, List.prefix_append _ _⟩
    · have hl := parseArgument_extends A _ (ih) left
        { st with calls := st.calls ++ [(left.get, my_op, right.get)] }
      have hr := parseArgument_extends A _ (ih) right
        (parseArgument A (calcRecursiveFuel A n) left
          { st with calls := st.calls ++ [(left.get, my_op, right.get)] }).2
      have hlr := h0.trans (hl.trans hr)
      split
      · exact hlr.trans (doTheCalculation_extends A _ _ _ _)
      · exact hlr

theorem calcRecursive_extends {α : Type} (A : Arith α) (left : MathExpression) (my_op : Str)
    (right : MathExpression) (st : Env) :
    Env.Extends st (calcRecursive A left my_op right st).2 :=
  calcRecursiveFuel_extends A _ left my_op right st

theorem calcExpression_extends {α : Type} (A : Arith α) (expr : MathExpression) (st : Env) :
    Env.Extends st (calcExpression A expr st).2 := by
  rw [calcExpression_eq_parseArgument]
  exact parseArgument_extends A _ (calcRecursive_extends A) expr st

/-- In a call that does not stop at the missing-operand check, the final state is a later
state of the one reached after the left operand and of the one reached after the right
operand. -/
theorem calcRecursive_extends_operands {α : Type} (A : Arith α) (left : MathExpression)
    (my_op : Str) (right : MathExpression) (st : Env)
    (hmiss : ¬ (my_op ≠ [] ∧ (left.get = [] ∨ right.get = []))) :
    Env.Extends
        (calcExpression A left
          { st with calls := st.calls ++ [(left.get, my_op, right.get)] }).2
        (calcRecursive A left my_op right st).2 ∧
      Env.Extends
        (calcExpression A right
          (calcExpression A left
            { st with calls := st.calls ++ [(left.get, my_op, right.get)] }).2).2
        (calcRecursive A left my_op right st).2 := by
  rw [calcRecursive_eq, if_neg hmiss]
  have hr := calcExpression_extends A right
    (calcExpression A left
      { st with calls := st.calls ++ [(left.get, my_op, right.get)] }).2
  split
  · exact ⟨hr.trans (doTheCalculation_extends A _ _ _ _), doTheCalculation_extends A _ _ _ _⟩
  · exact ⟨hr, Env.Extends.refl _⟩

/-! ## Splits -/

/-- The three pieces of a split: the operator string is the one character at the scanner
position, an operator, and the string is `left ++ op ++ right`. -/
theorem split_pieces (str : Str) (p : Nat) (h : nextOperatorPosition str = some p) :
    ∃ c, (c = '+' ∨ c = '-' ∨ c = '*' ∨ c = '/') ∧ (str.drop p).take 1 = [c] ∧
      str = str.take p ++ c :: str.drop (p + 1) ∧
      (str.take p).length + (str.drop (p + 1)).length + 1 = str.length := by
  obtain ⟨hlt, c, hc, hop⟩ := nextOperatorPosition_lt str p h
  have hget : str[p] = c := by
    rw [List.getElem?_eq_getElem hlt] at hc
    exact Option.some.inj hc
  have hdrop : str.drop p = c :: str.drop (p + 1) := by
    rw [← hget]; exact List.drop_eq_getElem_cons hlt
  refine ⟨c, hop, by rw [hdrop]; rfl, ?_, ?_⟩
  · rw [← hdrop, List.take_append_drop]
  · simp only [List.length_take, List.length_drop]; omega

/-- On one of the four operator strings the combination step returns a value. -/
theorem doTheCalculation_isSome {α : Type} (A : Arith α) (c : Char)
    (hc : c = '+' ∨ c = '-' ∨ c = '*' ∨ c = '/') (l r : α) (st : Env) :
    ∃ v, (doTheCalculation A [c] l r st).1 = some v := by
  unfold doTheCalculation
  rcases hc with h | h | h | h <;> subst h
  · exact ⟨A.add l r, by simp⟩
  · exact ⟨A.sub l r, by simp⟩
  · exact ⟨A.mul l r, by simp⟩
  · by_cases hz : A.eqZero r = true
    · exact ⟨A.zero, by simp [hz]⟩
    · exact ⟨A.div l r, by simp [hz]⟩

/-- The source function `calcExpression` returns a value on every string: no call of
`calcRecursive` that it makes runs past the last `if` of the combination step. -/
theorem calcExpression_isSome {α : Type} (A : Arith α) :
    ∀ (k : Nat) (expr : MathExpression) (st : Env), expr.get.length ≤ k →
      ∃ v, (calcExpression A expr st).1 = some v := by
  intro k
  induction k with
  | zero =>
    intro expr st hk
    have hnil : expr.get = [] := List.length_eq_zero.mp (by omega)
    exact ⟨_, by rw [calcExpression_leaf A expr st (by rw [hnil]; rfl)]⟩
  | succ k ih =>
    intro expr st hk
    cases hp : nextOperatorPosition expr.get with
    | none => exact ⟨_, by rw [calcExpression_leaf A expr st hp]⟩
    | some p =>
      obtain ⟨c, hc, hop, -, hlen⟩ := split_pieces expr.get p hp
      rw [calcExpression_split A expr st p hp, hop, calcRecursive_eq]
      split_ifs with hmiss
      · exact ⟨_, rfl⟩
      · obtain ⟨lv, hl⟩ := ih { s := expr.get.take p }
          { st with calls := st.calls ++ [(List.take p expr.get, [c], List.drop (p + 1) expr.get)] }
          (by simp only [MathExpression.get_mk]; omega)
        obtain ⟨rv, hr⟩ := ih { s := expr.get.drop (p + 1) }
          (calcExpression A { s := expr.get.take p }
            { st with calls := st.calls ++ [(List.take p expr.get, [c], List.drop (p + 1) expr.get)] }).2
          (by simp only [MathExpression.get_mk]; omega)
        simp only [MathExpression.get_mk] at hl hr ⊢
        rw [hl, hr]
        exact doTheCalculation_isSome A c hc lv rv _

/-! ## C2 : the split tree of `2+3*4-5/5` -/

/-- C2 : evaluating `2+3*4-5/5` from the cleared state follows the split tree of the
specification.  The scanner splits the string at its `+` (index 1), the right side
`3*4-5/5` at its `-` (index 3), `3*4` at `*` and `5/5` at `/`; the calls of `calcRecursive`
are exactly `("2","+","3*4-5/5")`, `("3*4","-","5/5")`, `("3","*","4")`, `("5","/","5")`;
`3*4` gives 12, `5/5` gives 1, `3*4-5/5` gives 11; the result is 13, nothing is printed
and the flag is still clear.  For every arithmetic in which `atof "5"` is not zero the
same four calls are made and the value is `2 + (3 * 4 - 5 / 5)` in that arithmetic. -/
theorem C2_split_tree :
    nextOperatorPosition "2+3*4-5/5".toList = some 1 ∧
    nextOperatorPosition "3*4-5/5".toList = some 3 ∧
    nextOperatorPosition "3*4".toList = some 1 ∧
    nextOperatorPosition "5/5".toList = some 1 ∧
    nextOperatorPosition "2".toList = none ∧
    calcExpression exactArith (MathExpression.construct "3*4".toList) Env.initial =
      (some 12, { Env.initial with calls := [("3".toList, "*".toList, "4".toList)] }) ∧
    calcExpression exactArith (MathExpression.construct "5/5".toList) Env.initial =
      (some 1, { Env.initial with calls := [("5".toList, "/".toList, "5".toList)] }) ∧
    (calcExpression exactArith (MathExpression.construct "3*4-5/5".toList) Env.initial).1 =
      some 11 ∧
    calcExpression exactArith (MathExpression.construct "2+3*4-5/5".toList) Env.initial =
      (some 13,
        { illegal_calculation := false,
          cout := [],
          calls := [("2".toList, "+".toList, "3*4-5/5".toList),
                    ("3*4".toList, "-".toList, "5/5".toList),
                    ("3".toList, "*".toList, "4".toList),
                    ("5".toList, "/".toList, "5".toList)] }) ∧
    (∀ (α : Type) (A : Arith α) (st : Env), A.eqZero (A.atof "5".toList) = false →
      calcExpression A (MathExpression.construct "2+3*4-5/5".toList) st =
        (some (A.add (A.atof "2".toList)
            (A.sub (A.mul (A.atof "3".toList) (A.atof "4".toList))
              (A.div (A.atof "5".toList) (A.atof "5".toList)))),
          { st with calls := st.calls ++
              [("2".toList, "+".toList, "3*4-5/5".toList),
               ("3*4".toList, "-".toList, "5/5".toList),
               ("3".toList, "*".toList, "4".toList),
               ("5".toList, "/".toList, "5".toList)] })) := by
  refine ⟨by decide, by decide, by decide, by decide, by decide, ?_, ?_, ?_, ?_, ?_⟩
  · simp [calcExpression, calcRecursive, calcRecursiveFuel, nextOperatorPosition,
      nextOperatorPositionLoop, find_first_of, supported_operations, substr,
      MathExpression.construct, MathExpression.get, doTheCalculation, exactArith, atofExact,
      readDigits, isspace, Env.initial]
    norm_num
  · simp [calcExpression, calcRecursive, calcRecursiveFuel, nextOperatorPosition,
      nextOperatorPositionLoop, find_first_of, supported_operations, substr,
      MathExpression.construct, MathExpression.get, doTheCalculation, exactArith, atofExact,
      readDigits, isspace, Env.initial]
  · simp [calcExpression, calcRecursive, calcRecursiveFuel, nextOperatorPosition,
      nextOperatorPositionLoop, find_first_of, supported_operations, substr,
      MathExpression.construct, MathExpression.get, doTheCalculation, exactArith, atofExact,
      readDigits, isspace, Env.initial]
    norm_num
  · simp [calcExpression, calcRecursive, calcRecursiveFuel, nextOperatorPosition,
      nextOperatorPositionLoop, find_first_of, supported_operations, substr,
      MathExpression.construct, MathExpression.get, doTheCalculation, exactArith, atofExact,
      readDigits, isspace, Env.initial]
    norm_num
  · intro α A st h5
    have h5c : A.eqZero (A.atof ['5']) = false := h5
    simp [calcExpression, calcRecursive, calcRecursiveFuel, nextOperatorPosition,
      nextOperatorPositionLoop, find_first_of, supported_operations, substr,
      MathExpression.construct, MathExpression.get, doTheCalculation, h5c]

/-! ## C3, C4 : binary expressions and leaves -/

/-- A string whose only operator character is the one between `a` and `b` is split there. -/
theorem nextOperatorPosition_single (a b : Str) (c : Char)
    (hc : c = '+' ∨ c = '-' ∨ c = '*' ∨ c = '/')
    (ha : ∀ x ∈ a, x ≠ '+' ∧ x ≠ '-' ∧ x ≠ '*' ∧ x ≠ '/')
    (hb : ∀ x ∈ b, x ≠ '+' ∧ x ≠ '-' ∧ x ≠ '*' ∧ x ≠ '/') :
    nextOperatorPosition (a ++ c :: b) = some a.length := by
  cases hp : nextOperatorPosition (a ++ c :: b) with
  | none =>
    have h := (nextOperatorPosition_eq_none _).mp hp c (by simp)
    rcases hc with e | e | e | e <;> simp [e] at h
  | some p =>
    obtain ⟨hlt, d, hd, hop⟩ := nextOperatorPosition_lt _ p hp
    have hnot : ∀ x : Char, (x = '+' ∨ x = '-' ∨ x = '*' ∨ x = '/') →
        (x ≠ '+' ∧ x ≠ '-' ∧ x ≠ '*' ∧ x ≠ '/') → False := by
      intro x hx hnx
      rcases hx with e | e | e | e
      · exact hnx.1 e
      · exact hnx.2.1 e
      · exact hnx.2.2.1 e
      · exact hnx.2.2.2 e
    rcases Nat.lt_trichotomy p a.length with h | h | h
    · rw [List.getElem?_append_left h] at hd
      exact (hnot d hop (ha d (List.getElem?_mem hd))).elim
    · rw [h]
    · rw [List.getElem?_append_right (by omega)] at hd
      obtain ⟨q, hq⟩ : ∃ q, p - a.length = q + 1 := ⟨p - a.length - 1, by omega⟩
      rw [hq, List.getElem?_cons_succ] at hd
      exact (hnot d hop (hb d (List.getElem?_mem hd))).elim

/-- The evaluation of `a c b` for operator-free non-empty `a` and `b`: one call of
`calcRecursive`, whose operands are leaves, followed by the combination step. -/
theorem calcExpression_binary {α : Type} (A : Arith α) (a b : Str) (c : Char)
    (hc : c = '+' ∨ c = '-' ∨ c = '*' ∨ c = '/')
    (ha : ∀ x ∈ a, x ≠ '+' ∧ x ≠ '-' ∧ x ≠ '*' ∧ x ≠ '/')
    (hb : ∀ x ∈ b, x ≠ '+' ∧ x ≠ '-' ∧ x ≠ '*' ∧ x ≠ '/')
    (ha0 : a ≠ []) (hb0 : b ≠ []) (expr : MathExpression) (he : expr.get = a ++ c :: b)
    (st : Env) :
    calcExpression A expr st =
      doTheCalculation A [c] (A.atof a) (A.atof b)
        { st with calls := st.calls ++ [(a, [c], b)] } := by
  have hp := nextOperatorPosition_single a b c hc ha hb
  rw [← he] at hp
  rw [calcExpression_split A expr st _ hp, he]
  have e1 : List.take a.length (a ++ c :: b) = a := by simp
  have e2 : List.take 1 (List.drop a.length (a ++ c :: b)) = [c] := by simp
  have e3 : List.drop (a.length + 1) (a ++ c :: b) = b := by
    rw [← List.drop_drop]; simp
  rw [e1, e2, e3, calcRecursive_eq]
  have hmiss : ¬ (([c] : Str) ≠ [] ∧
      ((MathExpression.mk a).get = [] ∨ (MathExpression.mk b).get = [])) := by
    simp [ha0, hb0]
  rw [if_neg hmiss]
  have la : nextOperatorPosition (MathExpression.mk a).get = none :=
    (nextOperatorPosition_eq_none a).mpr ha
  have lb : nextOperatorPosition (MathExpression.mk b).get = none :=
    (nextOperatorPosition_eq_none b).mpr hb
  simp only [calcExpression_leaf A _ _ la, calcExpression_leaf A _ _ lb,
    MathExpression.get_mk]

/-- A literal is not empty and has no operator character. -/
theorem isLiteral_operator_free (str : Str) (h : isLiteral str = true) :
    str ≠ [] ∧ ∀ x ∈ str, x ≠ '+' ∧ x ≠ '-' ∧ x ≠ '*' ∧ x ≠ '/' := by
  simp only [isLiteral, Bool.and_eq_true, Bool.not_eq_true', List.all_eq_true,
    Bool.or_eq_true, decide_eq_true_eq] at h
  obtain ⟨⟨hne, hall⟩, -⟩ := h
  refine ⟨by intro e; subst e; simp at hne, ?_⟩
  intro x hx
  have hx2 := hall x hx
  refine ⟨?_, ?_, ?_, ?_⟩ <;> intro e <;> subst e <;> revert hx2 <;> decide

/-- C3 : for valid literals `a` and `b`, `calcExpression` on `a op b` returns the direct
combination of `atof a` and `atof b` under `op` (sum, difference, product, and the
quotient when `atof b` is not zero); the only change of the state is the log entry of the
single `calcRecursive` call, so the illegal-calculation flag is left as it was, and
nothing is printed. -/
theorem C3_binary_expression {α : Type} (A : Arith α) (a b : Str) (st : Env)
    (ha : isLiteral a = true) (hb : isLiteral b = true) :
    calcExpression A (MathExpression.construct (a ++ '+' :: b)) st =
        (some (A.add (A.atof a) (A.atof b)),
          { st with calls := st.calls ++ [(a, ['+'], b)] }) ∧
    calcExpression A (MathExpression.construct (a ++ '-' :: b)) st =
        (some (A.sub (A.atof a) (A.atof b)),
          { st with calls := st.calls ++ [(a, ['-'], b)] }) ∧
    calcExpression A (MathExpression.construct (a ++ '*' :: b)) st =
        (some (A.mul (A.atof a) (A.atof b)),
          { st with calls := st.calls ++ [(a, ['*'], b)] }) ∧
    (A.eqZero (A.atof b) = false →
      calcExpression A (MathExpression.construct (a ++ '/' :: b)) st =
        (some (A.div (A.atof a) (A.atof b)),
          { st with calls := st.calls ++ [(a, ['/'], b)] })) := by
  obtain ⟨ha0, ha⟩ := isLiteral_operator_free a ha
  obtain ⟨hb0, hb⟩ := isLiteral_operator_free b hb
  refine ⟨?_, ?_, ?_, ?_⟩
  · rw [calcExpression_binary A a b '+' (by simp) ha hb ha0 hb0
      (MathExpression.construct (a ++ '+' :: b)) rfl]
    simp [doTheCalculation]
  · rw [calcExpression_binary A a b '-' (by simp) ha hb ha0 hb0
      (MathExpression.construct (a ++ '-' :: b)) rfl]
    simp [doTheCalculation]
  · rw [calcExpression_binary A a b '*' (by simp) ha hb ha0 hb0
      (MathExpression.construct (a ++ '*' :: b)) rfl]
    simp [doTheCalculation]
  · intro hz
    rw [calcExpression_binary A a b '/' (by simp) ha hb ha0 hb0
      (MathExpression.construct (a ++ '/' :: b)) rfl]
    simp [doTheCalculation, hz]

/-- C3, at the literals `1.5` and `4` in exact arithmetic, from the cleared state. -/
theorem C3_binary_expression_witness :
    isLiteral "1.5".toList = true ∧ isLiteral "4".toList = true ∧
    (calcExpression exactArith (MathExpression.construct ("1.5".toList ++ '+' :: "4".toList))
          Env.initial =
        (some (exactArith.add (exactArith.atof "1.5".toList) (exactArith.atof "4".toList)),
          { Env.initial with
            calls := Env.initial.calls ++ [("1.5".toList, ['+'], "4".toList)] }) ∧
    calcExpression exactArith (MathExpression.construct ("1.5".toList ++ '-' :: "4".toList))
          Env.initial =
        (some (exactArith.sub (exactArith.atof "1.5".toList) (exactArith.atof "4".toList)),
          { Env.initial with
            calls := Env.initial.calls ++ [("1.5".toList, ['-'], "4".toList)] }) ∧
    calcExpression exactArith (MathExpression.construct ("1.5".toList ++ '*' :: "4".toList))
          Env.initial =
        (some (exactArith.mul (exactArith.atof "1.5".toList) (exactArith.atof "4".toList)),
          { Env.initial with
            calls := Env.initial.calls ++ [("1.5".toList, ['*'], "4".toList)] }) ∧
    (exactArith.eqZero (exactArith.atof "4".toList) = false →
      calcExpression exactArith (MathExpression.construct ("1.5".toList ++ '/' :: "4".toList))
          Env.initial =
        (some (exactArith.div (exactArith.atof "1.5".toList) (exactArith.atof "4".toList)),
          { Env.initial with
            calls := Env.initial.calls ++ [("1.5".toList, ['/'], "4".toList)] }))) :=
  ⟨by decide, by decide,
    C3_binary_expression exactArith "1.5".toList "4".toList Env.initial (by decide) (by decide)⟩

/-- On a run of digits `readDigits` consumes everything and accumulates the decimal value. -/
theorem readDigits_digits (ds : Str) (h : ∀ c ∈ ds, c.isDigit = true) (acc n : Nat) :
    readDigits ds acc n =
      (ds.foldl (fun a c => 10 * a + (c.toNat - 48)) acc, n + ds.length, []) := by
  induction ds generalizing acc n with
  | nil => simp [readDigits]
  | cons c cs ih =>
    have hc : c.isDigit = true := h c (by simp)
    simp only [readDigits, hc, if_true, List.foldl_cons, List.length_cons]
    rw [ih (fun x hx => h x (by simp [hx]))]
    simp only [Prod.mk.injEq, true_and, and_true]
    omega

/-- A digit is neither white space nor a sign. -/
theorem isDigit_not_space_sign (c : Char) (h : c.isDigit = true) :
    isspace c = false ∧ c ≠ '-' ∧ c ≠ '+' := by
  refine ⟨?_, ?_, ?_⟩
  · simp only [Char.isDigit, Bool.and_eq_true, decide_eq_true_eq] at h
    have h48 : 48 ≤ c.toNat := h.1
    have hne : c ≠ ' ' := by
      intro e; subst e; revert h48; decide
    simp only [isspace, Bool.or_eq_false_iff, decide_eq_false_iff_not, Bool.and_eq_false_iff,
      Nat.not_le]
    exact ⟨hne, Or.inr (by omega)⟩
  · intro e; subst e; revert h; decide
  · intro e; subst e; revert h; decide

/-- The exact `atof` of a non-empty string of digits is its decimal value. -/
theorem atofExact_digits (ds : Str) (hne : ds ≠ []) (h : ∀ c ∈ ds, c.isDigit = true) :
    atofExact ds = (decimalValue ds : ℚ) := by
  cases ds with
  | nil => exact absurd rfl hne
  | cons c cs =>
    obtain ⟨hsp, hm, hp⟩ := isDigit_not_space_sign c (h c (by simp))
    have hbody : List.dropWhile isspace (c :: cs) = c :: cs := by
      simp [List.dropWhile, hsp]
    have hsigned : (match c :: cs with
        | '-' :: t => (true, t)
        | '+' :: t => (false, t)
        | _ => (false, c :: cs)) = (false, c :: cs) := by
      split
      · rename_i heq; simp at heq; exact absurd heq.1 hm
      · rename_i heq; simp at heq; exact absurd heq.1 hp
      · rfl
    unfold atofExact
    simp only [hbody, hsigned, readDigits_digits (c :: cs) h 0 0]
    simp [decimalValue]

/-- On a non-empty string of digits `atofParts` reads the decimal value over 1. -/
theorem atofParts_digits (ds : Str) (hne : ds ≠ []) (h : ∀ c ∈ ds, c.isDigit = true) :
    atofParts ds = (false, decimalValue ds, 1) := by
  cases ds with
  | nil => exact absurd rfl hne
  | cons c cs =>
    obtain ⟨hsp, hm, hp⟩ := isDigit_not_space_sign c (h c (by simp))
    have hbody : List.dropWhile isspace (c :: cs) = c :: cs := by
      simp [List.dropWhile, hsp]
    have hsigned : (match c :: cs with
        | '-' :: t => (true, t)
        | '+' :: t => (false, t)
        | _ => (false, c :: cs)) = (false, c :: cs) := by
      split
      · rename_i heq; simp at heq; exact absurd heq.1 hm
      · rename_i heq; simp at heq; exact absurd heq.1 hp
      · rfl
    unfold atofParts
    simp only [hbody, hsigned, readDigits_digits (c :: cs) h 0 0]
    simp [decimalValue]

/-- Scaling an integer below `2 ^ 53` only doubles it, and keeps its value. -/
theorem normalizeRatio_integer :
    ∀ (fuel n : Nat) (e : Int), 0 < n → n < 2 ^ 53 → 2 ^ 53 ≤ n * 2 ^ fuel →
      (normalizeRatio fuel n 1 e).2.1 = 1 ∧
      ((normalizeRatio fuel n 1 e).1 : ℚ) * (2 : ℚ) ^ (normalizeRatio fuel n 1 e).2.2 =
        (n : ℚ) * (2 : ℚ) ^ e := by
  intro fuel
  induction fuel with
  | zero =>
    intro n e _ hlt hge
    simp at hge
    omega
  | succ fuel ih =>
    intro n e hpos hlt hge
    have h1 : ¬ (2 ^ 53 ≤ n / 1) := by simp; omega
    by_cases h2 : n / 1 < 2 ^ 52
    · simp only [normalizeRatio, h1, h2, if_false, if_true]
      have hn2 : n < 2 ^ 52 := by simpa using h2
      have e1 : n * 2 ^ (fuel + 1) = 2 * n * 2 ^ fuel := by rw [pow_succ]; ring
      obtain ⟨r1, r2⟩ := ih (2 * n) (e - 1) (by omega) (by omega) (by rw [← e1]; exact hge)
      refine ⟨r1, ?_⟩
      rw [r2]
      have hz : (2 : ℚ) ^ (e - 1) = (2 : ℚ) ^ e / 2 := by
        rw [zpow_sub₀ (by norm_num : (2 : ℚ) ≠ 0), zpow_one]
      rw [hz]
      push_cast
      ring
    · refine ⟨?_, ?_⟩ <;> simp only [normalizeRatio, h1, h2, if_false]

theorem normalizeRatio_budget (n k : Nat) (hpos : 0 < n) (hk : 53 ≤ k) :
    2 ^ 53 ≤ n * 2 ^ k :=
  calc 2 ^ 53 ≤ 2 ^ k := Nat.pow_le_pow_right (by decide) hk
    _ = 1 * 2 ^ k := (one_mul _).symm
    _ ≤ n * 2 ^ k := Nat.mul_le_mul_right _ hpos

theorem roundedSignificand_one (n : Nat) : roundedSignificand n 1 = n := by
  simp [roundedSignificand, Nat.mod_one]

theorem binary64Value_zero (d : Nat) : binary64Value 0 d = 0 := by
  unfold binary64Value
  rw [if_pos rfl]

/-- An integer below `2 ^ 53` is a double: rounding leaves it as it is. -/
theorem binary64Value_integer (n : Nat) (h : n < 2 ^ 53) : binary64Value n 1 = (n : ℚ) := by
  unfold binary64Value
  by_cases h0 : n = 0
  · simp [h0]
  · rw [if_neg h0]
    have hpos : 0 < n := Nat.pos_of_ne_zero h0
    obtain ⟨r1, r2⟩ := normalizeRatio_integer 2200 n 0 hpos h
      (normalizeRatio_budget n 2200 hpos (by decide))
    rw [r1, roundedSignificand_one, r2]
    simp

/-- The rounded `atof` of a non-empty string of digits whose decimal value is below
`2 ^ 53` is that value. -/
theorem atofBinary64_digits (ds : Str) (hne : ds ≠ []) (h : ∀ c ∈ ds, c.isDigit = true)
    (hlt : decimalValue ds < 2 ^ 53) : atofBinary64 ds = (decimalValue ds : ℚ) := by
  unfold atofBinary64
  rw [atofParts_digits ds hne h]
  simp only [Bool.false_eq_true, if_false]
  exact binary64Value_integer _ hlt

/-- The rounded `atof` at the strings of the examples. -/
theorem atofBinary64_examples :
    atofBinary64 "9007199254740993".toList = 9007199254740992 ∧
    atofBinary64 "1.2.3".toList = 5404319552844595 / 4503599627370496 ∧
    atofBinary64 ".".toList = 0 ∧ atofBinary64 " ".toList = 0 := by
  refine ⟨?_, ?_, ?_, ?_⟩
  · have hp : atofParts "9007199254740993".toList = (false, 9007199254740993, 1) := by
      decide
    have hn : normalizeRatio 2200 9007199254740993 1 0 = (9007199254740993, 2, 1) := by
      decide
    have hs : roundedSignificand 9007199254740993 2 = 4503599627370496 := by decide
    simp only [atofBinary64, hp, binary64Value, hn, hs]
    norm_num
  · have hp : atofParts "1.2.3".toList = (false, 12, 10) := by decide
    have hn : normalizeRatio 2200 12 10 0 = (54043195528445952, 10, -52) := by decide
    have hs : roundedSignificand 54043195528445952 10 = 5404319552844595 := by decide
    simp only [atofBinary64, hp, binary64Value, hn, hs]
    norm_num
  · have hp : atofParts ".".toList = (false, 0, 1) := by decide
    simp only [atofBinary64, hp, binary64Value_zero, Bool.false_eq_true, if_false]
  · have hp : atofParts " ".toList = (false, 0, 1) := by decide
    simp only [atofBinary64, hp, binary64Value_zero, Bool.false_eq_true, if_false]

/-- The exact `atof` is the signed ratio that `atofParts` reads. -/
theorem atofExact_eq_parts (str : Str) :
    atofExact str =
      (if (atofParts str).1 then -1 else 1) *
        (((atofParts str).2.1 : ℚ) / ((atofParts str).2.2 : ℚ)) := by
  unfold atofExact atofParts
  simp only []
  split_ifs <;> simp_all <;> (try field_simp)

/-- The rounding goes up above the half-way point and to the even significand at it; a
sign is kept. -/
theorem atofBinary64_rounding :
    atofBinary64 "9007199254740995".toList = 9007199254740996 ∧
    atofBinary64 "18014398509481987".toList = 18014398509481988 ∧
    atofBinary64 "-3".toList = -3 := by
  refine ⟨?_, ?_, ?_⟩
  · have hp : atofParts "9007199254740995".toList = (false, 9007199254740995, 1) := by
      decide
    have hn : normalizeRatio 2200 9007199254740995 1 0 = (9007199254740995, 2, 1) := by
      decide
    have hs : roundedSignificand 9007199254740995 2 = 4503599627370498 := by decide
    simp only [atofBinary64, hp, binary64Value, hn, hs]
    norm_num
  · have hp : atofParts "18014398509481987".toList = (false, 18014398509481987, 1) := by
      decide
    have hn : normalizeRatio 2200 18014398509481987 1 0 = (18014398509481987, 4, 2) := by
      decide
    have hs : roundedSignificand 18014398509481987 4 = 4503599627370497 := by decide
    simp only [atofBinary64, hp, binary64Value, hn, hs]
    norm_num
  · have hp : atofParts "-3".toList = (true, 3, 1) := by decide
    simp only [atofBinary64, hp, if_true]
    rw [binary64Value_integer 3 (by decide)]
    norm_num

/-- C4, refuted as stated : the digit string `9007199254740993` is a leaf of allowed
characters, yet `calcExpression` does not return its decimal value: `atof` returns the
nearest double, 9007199254740992 (the integer `2 ^ 53 + 1` is no double). -/
theorem C4_counterexample :
    (∀ c ∈ "9007199254740993".toList, c.isDigit = true ∧ c ∈ supported_characters) ∧
    decimalValue "9007199254740993".toList = 9007199254740993 ∧
    calcExpression roundedAtofArith (MathExpression.construct "9007199254740993".toList)
      Env.initial = (some 9007199254740992, Env.initial) ∧
    (calcExpression roundedAtofArith (MathExpression.construct "9007199254740993".toList)
      Env.initial).1 ≠ some ((decimalValue "9007199254740993".toList : Nat) : ℚ) := by
  have hd : decimalValue "9007199254740993".toList = 9007199254740993 := by decide
  have hval : calcExpression roundedAtofArith
      (MathExpression.construct "9007199254740993".toList) Env.initial =
      (some 9007199254740992, Env.initial) := by
    rw [calcExpression_leaf roundedAtofArith _ _ (by decide)]
    exact congrArg (fun v => (some v, Env.initial)) atofBinary64_examples.1
  refine ⟨by decide, hd, hval, ?_⟩
  rw [hval, hd]
  norm_num

/-- C4, amended : a leaf (a string without `+ - * /`, of allowed characters or not) is
not split: `calcExpression` returns `atof` of the whole string, a double, and leaves the
state untouched (no `calcRecursive` call, nothing printed, the illegal-calculation flag
as it was).  With `atof` rounded to the nearest double: a non-empty string of digits
whose decimal value is below `2 ^ 53` has its decimal value, the digit string
`9007199254740993` has 9007199254740992, and the non-numeric leaves `.`, `1.2.3` and the
blank string give `0`, the double nearest to `1.2` and `0`, with the flag clear. -/
theorem C4_leaf {α : Type} (A : Arith α) (expr : MathExpression) (st : Env)
    (hleaf : ∀ c ∈ expr.get, c ≠ '+' ∧ c ≠ '-' ∧ c ≠ '*' ∧ c ≠ '/') :
    calcExpression A expr st = (some (A.atof expr.get), st) ∧
    (∀ ds : Str, ds ≠ [] → (∀ c ∈ ds, c.isDigit = true) → decimalValue ds < 2 ^ 53 →
      calcExpression roundedAtofArith (MathExpression.construct ds) Env.initial =
        (some (decimalValue ds : ℚ), Env.initial)) ∧
    calcExpression roundedAtofArith (MathExpression.construct "9007199254740993".toList)
      Env.initial = (some 9007199254740992, Env.initial) ∧
    calcExpression roundedAtofArith (MathExpression.construct ".".toList) Env.initial =
      (some 0, Env.initial) ∧
    calcExpression roundedAtofArith (MathExpression.construct "1.2.3".toList) Env.initial =
      (some (5404319552844595 / 4503599627370496), Env.initial) ∧
    calcExpression roundedAtofArith (MathExpression.construct " ".toList) Env.initial =
      (some 0, Env.initial) := by
  refine ⟨calcExpression_leaf A expr st ((nextOperatorPosition_eq_none _).mpr hleaf),
    ?_, ?_, ?_, ?_, ?_⟩
  · intro ds hne hd hlt
    have hfree : ∀ c ∈ ds, c ≠ '+' ∧ c ≠ '-' ∧ c ≠ '*' ∧ c ≠ '/' := by
      intro c hc
      have hcd := hd c hc
      refine ⟨?_, ?_, ?_, ?_⟩ <;> intro e <;> subst e <;> revert hcd <;> decide
    rw [calcExpression_leaf roundedAtofArith _ _
      ((nextOperatorPosition_eq_none (MathExpression.construct ds).get).mpr hfree)]
    simp only [MathExpression.get_construct]
    exact congrArg (fun v => (some v, Env.initial)) (atofBinary64_digits ds hne hd hlt)
  · rw [calcExpression_leaf roundedAtofArith _ _ (by decide)]
    exact congrArg (fun v => (some v, Env.initial)) atofBinary64_examples.1
  · rw [calcExpression_leaf roundedAtofArith _ _ (by decide)]
    exact congrArg (fun v => (some v, Env.initial)) atofBinary64_examples.2.2.1
  · rw [calcExpression_leaf roundedAtofArith _ _ (by decide)]
    exact congrArg (fun v => (some v, Env.initial)) atofBinary64_examples.2.1
  · rw [calcExpression_leaf roundedAtofArith _ _ (by decide)]
    exact congrArg (fun v => (some v, Env.initial)) atofBinary64_examples.2.2.2

/-- C4 amended, at the leaf `1.2.3`. -/
theorem C4_leaf_witness :
    (∀ c ∈ (MathExpression.construct "1.2.3".toList).get,
      c ≠ '+' ∧ c ≠ '-' ∧ c ≠ '*' ∧ c ≠ '/') ∧
    calcExpression roundedAtofArith (MathExpression.construct "1.2.3".toList) Env.initial =
      (some (roundedAtofArith.atof (MathExpression.construct "1.2.3".toList).get),
        Env.initial) :=
  ⟨by decide,
    (C4_leaf roundedAtofArith (MathExpression.construct "1.2.3".toList) Env.initial
      (by decide)).1⟩

/-! ## C5 : division -/

/-- C5 : in a call `calcRecursive(left, "/", right)` with both operands non-empty, both
operands are evaluated (each returns a value); when the value of `right` compares equal
to `0` the call prints the division-by-zero message, sets the illegal-calculation flag
and returns `0`; otherwise the call returns the quotient of the two values and ends in
the state reached after the operands, so the combination step itself does not touch the
flag.  In particular `5/0` ends with the flag set. -/
theorem C5_division {α : Type} (A : Arith α) (left right : MathExpression) (st : Env)
    (hl : left.get ≠ []) (hr : right.get ≠ []) :
    (∃ (lv rv : α) (sl sr : Env),
      calcExpression A left
          { st with calls := st.calls ++ [(left.get, ['/'], right.get)] } = (some lv, sl) ∧
      calcExpression A right sl = (some rv, sr) ∧
      (A.eqZero rv = true →
        calcRecursive A left ['/'] right st =
          (some A.zero,
            { sr with cout := sr.cout ++ [divisionByZeroMessage],
                      illegal_calculation := true })) ∧
      (A.eqZero rv = false →
        calcRecursive A left ['/'] right st = (some (A.div lv rv), sr))) ∧
    (calcExpression exactArith (MathExpression.construct "5/0".toList)
        Env.initial).2.illegal_calculation = true ∧
    (∀ st0 : Env, A.eqZero (A.atof "0".toList) = true →
      (calcExpression A (MathExpression.construct "5/0".toList) st0).2.illegal_calculation
        = true) := by
  refine ⟨?_, ?_, ?_⟩
  · obtain ⟨lv, hlv⟩ := calcExpression_isSome A _ left
      { st with calls := st.calls ++ [(left.get, ['/'], right.get)] } (le_refl _)
    obtain ⟨rv, hrv⟩ := calcExpression_isSome A _ right
      (calcExpression A left
        { st with calls := st.calls ++ [(left.get, ['/'], right.get)] }).2 (le_refl _)
    have hmiss : ¬ ((['/'] : Str) ≠ [] ∧ (left.get = [] ∨ right.get = [])) := by
      simp [hl, hr]
    refine ⟨lv, rv, _, _, Prod.ext hlv rfl, Prod.ext hrv rfl, ?_, ?_⟩
    · intro hz
      rw [calcRecursive_eq, if_neg hmiss, hlv, hrv]
      simp [doTheCalculation, hz]
    · intro hz
      rw [calcRecursive_eq, if_neg hmiss, hlv, hrv]
      simp [doTheCalculation, hz]
  · simp [calcExpression, calcRecursive, calcRecursiveFuel, nextOperatorPosition,
      nextOperatorPositionLoop, find_first_of, supported_operations, substr,
      MathExpression.construct, MathExpression.get, doTheCalculation, exactArith, atofExact,
      readDigits, isspace, Env.initial]
  · intro st0 hz
    have hz0 : A.eqZero (A.atof ['0']) = true := hz
    simp [calcExpression, calcRecursive, calcRecursiveFuel, nextOperatorPosition,
      nextOperatorPositionLoop, find_first_of, supported_operations, substr,
      MathExpression.construct, MathExpression.get, doTheCalculation, hz0]

/-- C5, at the call `calcRecursive("5", "/", "0")` in exact arithmetic. -/
theorem C5_division_witness :
    (MathExpression.construct "5".toList).get ≠ [] ∧
    (MathExpression.construct "0".toList).get ≠ [] ∧
    calcRecursive exactArith (MathExpression.construct "5".toList) ['/']
        (MathExpression.construct "0".toList) Env.initial =
      (some 0,
        { illegal_calculation := true,
          cout := [divisionByZeroMessage],
          calls := [("5".toList, ['/'], "0".toList)] }) := by
  refine ⟨by decide, by decide, ?_⟩
  obtain ⟨⟨lv, rv, sl, sr, h1, h2, h3, -⟩, -, -⟩ :=
    C5_division exactArith (MathExpression.construct "5".toList)
      (MathExpression.construct "0".toList) Env.initial (by decide) (by decide)
  have e1 : calcExpression exactArith (MathExpression.construct "5".toList)
      { Env.initial with calls := Env.initial.calls ++
          [((MathExpression.construct "5".toList).get, ['/'],
            (MathExpression.construct "0".toList).get)] } =
      (some 5, { Env.initial with calls := [("5".toList, ['/'], "0".toList)] }) := by
    simp [calcExpression, nextOperatorPosition, nextOperatorPositionLoop, find_first_of,
      supported_operations, MathExpression.construct, MathExpression.get, exactArith,
      atofExact, readDigits, isspace, Env.initial]
  rw [e1] at h1
  obtain ⟨hlv, hsl⟩ := Prod.mk.inj h1
  subst hsl
  have e2 : calcExpression exactArith (MathExpression.construct "0".toList)
      { Env.initial with calls := [("5".toList, ['/'], "0".toList)] } =
      (some 0, { Env.initial with calls := [("5".toList, ['/'], "0".toList)] }) := by
    simp [calcExpression, nextOperatorPosition, nextOperatorPositionLoop, find_first_of,
      supported_operations, MathExpression.construct, MathExpression.get, exactArith,
      atofExact, readDigits, isspace, Env.initial]
  rw [e2] at h2
  obtain ⟨hrv, hsr⟩ := Prod.mk.inj h2
  subst hsr
  have hrv0 : rv = 0 := (Option.some.inj hrv).symm
  subst hrv0
  exact h3 (by simp [exactArith])

/-! ## C6 : malformed strings signal a missing operand -/

theorem mem_drop_of_prefix_right {β : Type} {l1 l2 l3 : List β} {x : β}
    (h23 : l2 <+: l3) (hx : x ∈ l2.drop l1.length) : x ∈ l3.drop l1.length := by
  obtain ⟨t, rfl⟩ := h23
  rw [List.drop_append_eq_append_drop]
  exact List.mem_append_left _ hx

theorem mem_drop_of_prefix_left {β : Type} {l1 l2 l3 : List β} {x : β}
    (h12 : l1 <+: l2) (hx : x ∈ l3.drop l2.length) : x ∈ l3.drop l1.length := by
  obtain ⟨t, rfl⟩ := h12
  rw [List.length_append, ← List.drop_drop] at hx
  exact List.mem_of_mem_drop hx

theorem Env.MissingOperandSince.extends_right {st1 st2 st3 : Env}
    (h : Env.MissingOperandSince st1 st2) (h23 : Env.Extends st2 st3) :
    Env.MissingOperandSince st1 st3 := by
  obtain ⟨hf, hm, l, op, r, hc, hop, hlr⟩ := h
  exact ⟨h23.1 hf, mem_drop_of_prefix_right h23.2.1 hm, l, op, r,
    mem_drop_of_prefix_right h23.2.2 hc, hop, hlr⟩

theorem Env.MissingOperandSince.extends_left {st1 st2 st3 : Env}
    (h12 : Env.Extends st1 st2) (h : Env.MissingOperandSince st2 st3) :
    Env.MissingOperandSince st1 st3 := by
  obtain ⟨hf, hm, l, op, r, hc, hop, hlr⟩ := h
  exact ⟨hf, mem_drop_of_prefix_left h12.2.1 hm, l, op, r,
    mem_drop_of_prefix_left h12.2.2 hc, hop, hlr⟩

/-- A malformed string has an operator character. -/
theorem Malformed.exists_operator {str : Str} (h : Malformed str) :
    ∃ c ∈ str, isOperator c := by
  rcases h with ⟨c, t, rfl, hc⟩ | ⟨t, c, rfl, hc⟩ | ⟨u, c, d, v, rfl, hc, -⟩
  · exact ⟨c, by simp, hc⟩
  · exact ⟨c, by simp, hc⟩
  · exact ⟨c, by simp, hc⟩

/-- When a malformed string is cut in two non-empty pieces around one character, one
of the pieces is malformed. -/
theorem Malformed.split {l r : Str} {c : Char} (h : Malformed (l ++ c :: r))
    (hl : l ≠ []) (hr : r ≠ []) : Malformed l ∨ Malformed r := by
  rcases h with ⟨x, t, he, hx⟩ | ⟨t, y, he, hy⟩ | ⟨u, x, y, v, he, hx, hy⟩
  · cases l with
    | nil => exact absurd rfl hl
    | cons a l2 =>
      simp only [List.cons_append, List.cons.injEq] at he
      exact Or.inl (Or.inl ⟨a, l2, rfl, he.1 ▸ hx⟩)
  · right; right; left
    obtain ⟨r2, z, rfl⟩ : ∃ r2 z, r = r2 ++ [z] :=
      ⟨r.dropLast, r.getLast hr, (List.dropLast_append_getLast hr).symm⟩
    have he2 : (l ++ c :: r2) ++ [z] = t ++ [y] := by simpa using he
    have hzy : z = y := by
      have := List.append_inj_right' he2 rfl
      simpa using this
    exact ⟨r2, z, rfl, hzy ▸ hy⟩
  · rcases List.append_eq_append_iff.mp he with ⟨a2, hu, hcr⟩ | ⟨c2, hlu, hxy⟩
    · cases a2 with
      | nil =>
        simp only [List.nil_append, List.cons.injEq] at hcr
        exact Or.inr (Or.inl ⟨y, v, hcr.2, hy⟩)
      | cons a a3 =>
        simp only [List.cons_append, List.cons.injEq] at hcr
        exact Or.inr (Or.inr (Or.inr ⟨a3, x, y, v, hcr.2, hx, hy⟩))
    · cases c2 with
      | nil =>
        simp only [List.nil_append, List.cons.injEq] at hxy
        exact Or.inr (Or.inl ⟨y, v, hxy.2.symm, hy⟩)
      | cons a c3 =>
        simp only [List.cons_append, List.cons.injEq] at hxy
        obtain ⟨hxa, hrest⟩ := hxy
        subst hxa
        cases c3 with
        | nil => exact Or.inl (Or.inr (Or.inl ⟨u, x, hlu, hx⟩))
        | cons b c4 =>
          simp only [List.cons_append, List.cons.injEq] at hrest
          obtain ⟨hyb, -⟩ := hrest
          subst hyb
          exact Or.inl (Or.inr (Or.inr ⟨u, x, y, c4, hlu, hx, hy⟩))

/-- Every malformed string ends its evaluation with a missing operand signalled. -/
theorem calcExpression_malformed {α : Type} (A : Arith α) :
    ∀ (k : Nat) (expr : MathExpression) (st : Env), expr.get.length ≤ k →
      Malformed expr.get → Env.MissingOperandSince st (calcExpression A expr st).2 := by
  intro k
  induction k with
  | zero =>
    intro expr st hk hmal
    obtain ⟨c, hc, -⟩ := hmal.exists_operator
    have hnil : expr.get = [] := List.length_eq_zero.mp (by omega)
    rw [hnil] at hc
    cases hc
  | succ k ih =>
    intro expr st hk hmal
    cases hp : nextOperatorPosition expr.get with
    | none =>
      obtain ⟨c, hc, hop⟩ := hmal.exists_operator
      have h := (nextOperatorPosition_eq_none _).mp hp c hc
      rcases hop with e | e | e | e
      · exact absurd e h.1
      · exact absurd e h.2.1
      · exact absurd e h.2.2.1
      · exact absurd e h.2.2.2
    | some p =>
      obtain ⟨c, -, hop, hsplit, hlen⟩ := split_pieces expr.get p hp
      rw [calcExpression_split A expr st p hp, hop]
      by_cases hmiss : (([c] : Str) ≠ [] ∧
          ((MathExpression.mk (expr.get.take p)).get = [] ∨
            (MathExpression.mk (expr.get.drop (p + 1))).get = []))
      · rw [calcRecursive_eq, if_pos hmiss]
        refine ⟨rfl, by simp, _, _, _, ?_, hmiss.1, hmiss.2⟩
        simp
      · have hne : expr.get.take p ≠ [] ∧ expr.get.drop (p + 1) ≠ [] := by
          simp only [MathExpression.get_mk] at hmiss
          constructor
          · intro e; exact hmiss ⟨by simp, Or.inl e⟩
          · intro e; exact hmiss ⟨by simp, Or.inr e⟩
        obtain ⟨hext1, hext2⟩ := calcRecursive_extends_operands A
          (MathExpression.mk (expr.get.take p)) [c]
          (MathExpression.mk (expr.get.drop (p + 1))) st hmiss
        have h0 : Env.Extends st { st with calls := st.calls ++
            [((MathExpression.mk (expr.get.take p)).get, [c],
              (MathExpression.mk (expr.get.drop (p + 1))).get)] } :=
          ⟨id, List.prefix_refl _, List.prefix_append _ _⟩
        rw [hsplit] at hmal
        rcases hmal.split hne.1 hne.2 with hL | hR
        · have := ih (MathExpression.mk (expr.get.take p))
            { st with calls := st.calls ++
              [((MathExpression.mk (expr.get.take p)).get, [c],
                (MathExpression.mk (expr.get.drop (p + 1))).get)] }
            (by simp only [MathExpression.get_mk]; omega) hL
          exact Env.MissingOperandSince.extends_left h0 (this.extends_right hext1)
        · have := ih (MathExpression.mk (expr.get.drop (p + 1)))
            (calcExpression A (MathExpression.mk (expr.get.take p))
              { st with calls := st.calls ++
                [((MathExpression.mk (expr.get.take p)).get, [c],
                  (MathExpression.mk (expr.get.drop (p + 1))).get)] }).2
            (by simp only [MathExpression.get_mk]; omega) hR
          exact Env.MissingOperandSince.extends_left
            (h0.trans (calcExpression_extends A _ _)) (this.extends_right hext2)

/-- C6 : a string that begins with an operator, ends with an operator, or has two
adjacent operator characters (whatever its other characters are) ends its evaluation
with the illegal-calculation flag set, whatever the flag was before, because a split of
the recursion has an empty side: the missing-operand message was printed during the
evaluation, and one of the `calcRecursive` calls made during it had an empty left or
right operand.  For `8*+9` the calls are `("8*","+","9")` and `("8","*","")`. -/
theorem C6_malformed_sets_flag {α : Type} (A : Arith α) (expr : MathExpression) (st : Env)
    (hmal : Malformed expr.get) :
    (calcExpression A expr st).2.illegal_calculation = true ∧
    missingOperandMessage ∈ (calcExpression A expr st).2.cout.drop st.cout.length ∧
    (∃ l op r, (l, op, r) ∈ (calcExpression A expr st).2.calls.drop st.calls.length ∧
      op ≠ [] ∧ (l = [] ∨ r = [])) ∧
    (calcExpression A (MathExpression.construct "8*+9".toList) st).2 =
      { illegal_calculation := true,
        cout := st.cout ++ [missingOperandMessage],
        calls := st.calls ++
          [("8*".toList, "+".toList, "9".toList), ("8".toList, "*".toList, "".toList)] } := by
  obtain ⟨h1, h2, h3⟩ := calcExpression_malformed A _ expr st (le_refl _) hmal
  refine ⟨h1, h2, h3, ?_⟩
  simp [calcExpression, calcRecursive, calcRecursiveFuel, nextOperatorPosition,
    nextOperatorPositionLoop, find_first_of, supported_operations, substr,
    MathExpression.construct, MathExpression.get, doTheCalculation]

/-- C6, at the string `8*+9` (adjacent operators `*` and `+`) from the cleared state. -/
theorem C6_malformed_sets_flag_witness :
    Malformed (MathExpression.construct "8*+9".toList).get ∧
    (calcExpression exactArith (MathExpression.construct "8*+9".toList)
      Env.initial).2.illegal_calculation = true :=
  ⟨Or.inr (Or.inr ⟨['8'], '*', '+', ['9'], rfl, Or.inr (Or.inr (Or.inl rfl)), Or.inl rfl⟩),
    (C6_malformed_sets_flag exactArith (MathExpression.construct "8*+9".toList) Env.initial
      (Or.inr (Or.inr
        ⟨['8'], '*', '+', ['9'], rfl, Or.inr (Or.inr (Or.inl rfl)), Or.inl rfl⟩))).1⟩

/-! ## C7 : what a missing operand does to the returned value -/

/-- C7, refuted as stated: in `8*+9` a missing operand is detected (the call
`("8","*","")` has an empty right operand), yet `calcExpression` returns 9, not 0: the
enclosing call goes on to add the 0 of the inner call to the value of `9`. -/
theorem C7_counterexample :
    (∃ l op r,
      (l, op, r) ∈ (calcExpression exactArith (MathExpression.construct "8*+9".toList)
        Env.initial).2.calls ∧ op ≠ [] ∧ (l = [] ∨ r = [])) ∧
    (calcExpression exactArith (MathExpression.construct "8*+9".toList) Env.initial).1 =
      some 9 ∧
    (calcExpression exactArith (MathExpression.construct "8*+9".toList) Env.initial).1 ≠
      some exactArith.zero := by
  have hval : calcExpression exactArith (MathExpression.construct "8*+9".toList)
      Env.initial =
      (some 9,
        { illegal_calculation := true,
          cout := [missingOperandMessage],
          calls := [("8*".toList, "+".toList, "9".toList),
                    ("8".toList, "*".toList, "".toList)] }) := by
    simp [calcExpression, calcRecursive, calcRecursiveFuel, nextOperatorPosition,
      nextOperatorPositionLoop, find_first_of, supported_operations, substr,
      MathExpression.construct, MathExpression.get, doTheCalculation, exactArith, atofExact,
      readDigits, isspace, Env.initial]
  rw [hval]
  refine ⟨⟨"8".toList, "*".toList, "".toList, by simp, by simp, Or.inr rfl⟩, rfl, ?_⟩
  simp [exactArith]

/-- C7, amended : a `calcRecursive` call with a non-empty operator string and an empty
left or right operand returns `0` at once: it logs itself, prints the missing-operand
message and sets the flag, and evaluates neither operand.  Hence `calcExpression` returns
`0` with the flag set when its own (first) split has an empty side.  Enclosing calls
are not cut short: they combine that `0` with their other operand. -/
theorem C7_missing_operand_call_returns_zero {α : Type} (A : Arith α)
    (left : MathExpression) (my_op : Str) (right : MathExpression) (st : Env)
    (hop : my_op ≠ []) (hside : left.get = [] ∨ right.get = []) :
    calcRecursive A left my_op right st =
      (some A.zero,
        { illegal_calculation := true,
          cout := st.cout ++ [missingOperandMessage],
          calls := st.calls ++ [(left.get, my_op, right.get)] }) ∧
    (∀ (expr : MathExpression) (p : Nat), nextOperatorPosition expr.get = some p →
      (expr.get.take p = [] ∨ expr.get.drop (p + 1) = []) →
      calcExpression A expr st =
        (some A.zero,
          { illegal_calculation := true,
            cout := st.cout ++ [missingOperandMessage],
            calls := st.calls ++
              [(expr.get.take p, (expr.get.drop p).take 1, expr.get.drop (p + 1))] })) := by
  constructor
  · rw [calcRecursive_eq, if_pos ⟨hop, hside⟩]
  · intro expr p hp hempty
    obtain ⟨c, -, hc, -, -⟩ := split_pieces expr.get p hp
    rw [calcExpression_split A expr st p hp, calcRecursive_eq,
      if_pos ⟨by rw [hc]; simp, by simpa using hempty⟩]
    simp

/-- C7 amended, at the call `calcRecursive("8", "*", "")`. -/
theorem C7_missing_operand_call_returns_zero_witness :
    ("*".toList ≠ []) ∧
    ((MathExpression.construct "8".toList).get = [] ∨
      (MathExpression.construct "".toList).get = []) ∧
    calcRecursive exactArith (MathExpression.construct "8".toList) "*".toList
        (MathExpression.construct "".toList) Env.initial =
      (some 0,
        { illegal_calculation := true,
          cout := [missingOperandMessage],
          calls := [("8".toList, "*".toList, "".toList)] }) :=
  ⟨by decide, Or.inr rfl,
    (C7_missing_operand_call_returns_zero exactArith (MathExpression.construct "8".toList)
      "*".toList (MathExpression.construct "".toList) Env.initial (by decide)
      (Or.inr rfl)).1⟩

/-! ## C8 : the flag is never cleared -/

/-- The final state of a nested invocation is an earlier state of its caller's. -/
theorem DirectCall.extends {α : Type} {A : Arith α} {c d : Invocation}
    (h : DirectCall A c d) : Env.Extends (d.run A).2 (c.run A).2 := by
  cases h with
  | left op_pos hpass hpos =>
    have e : calcExpression A c.left c.entry =
        calcRecursive A (MathExpression.construct (substr c.left.get 0 (some op_pos)))
          (substr c.left.get op_pos (some 1))
          (MathExpression.construct (substr c.left.get (op_pos + 1) none)) c.entry := by
      simp only [calcExpression, hpos]
    simp only [Invocation.run]
    rw [← e]
    exact (calcRecursive_extends_operands A c.left c.my_op c.right c.st hpass).1
  | right op_pos hpass hpos =>
    have e : calcExpression A c.right (calcExpression A c.left c.entry).2 =
        calcRecursive A (MathExpression.construct (substr c.right.get 0 (some op_pos)))
          (substr c.right.get op_pos (some 1))
          (MathExpression.construct (substr c.right.get (op_pos + 1) none))
          (calcExpression A c.left c.entry).2 := by
      simp only [calcExpression, hpos]
    simp only [Invocation.run]
    rw [← e]
    exact (calcRecursive_extends_operands A c.left c.my_op c.right c.st hpass).2

/-- The same for invocations nested at any depth. -/
theorem nested_extends {α : Type} {A : Arith α} {c d : Invocation}
    (h : Relation.ReflTransGen (DirectCall A) c d) :
    Env.Extends (d.run A).2 (c.run A).2 := by
  induction h with
  | refl => exact Env.Extends.refl _
  | tail _ hstep ih => exact (DirectCall.extends hstep).trans ih

/-- C8 : the evaluator never clears the illegal-calculation flag.  A call of
`calcRecursive` or of `calcExpression` that starts with the flag set ends with it set;
and for a top-level `calcExpression(expr)` that splits, every `calcRecursive` invocation
`d` nested at any depth below the top-level one (the top-level one included): if the flag
is set when `d` starts or when `d` returns, it is set when `calcExpression` returns. -/
theorem C8_flag_never_cleared {α : Type} (A : Arith α) :
    (∀ (left : MathExpression) (my_op : Str) (right : MathExpression) (st : Env),
      st.illegal_calculation = true →
      (calcRecursive A left my_op right st).2.illegal_calculation = true) ∧
    (∀ (expr : MathExpression) (st : Env),
      st.illegal_calculation = true →
      (calcExpression A expr st).2.illegal_calculation = true) ∧
    (∀ (expr : MathExpression) (st : Env) (op_pos : Nat),
      nextOperatorPosition expr.get = some op_pos →
      ∀ d : Invocation,
        Relation.ReflTransGen (DirectCall A)
          { left := MathExpression.construct (substr expr.get 0 (some op_pos)),
            my_op := substr expr.get op_pos (some 1),
            right := MathExpression.construct (substr expr.get (op_pos + 1) none),
            st := st } d →
        (d.st.illegal_calculation = true ∨ (d.run A).2.illegal_calculation = true) →
        (calcExpression A expr st).2.illegal_calculation = true) := by
  refine ⟨fun left my_op right st h => (calcRecursive_extends A left my_op right st).1 h,
    fun expr st h => (calcExpression_extends A expr st).1 h, ?_⟩
  intro expr st op_pos hpos d hd hflag
  have hpost : (d.run A).2.illegal_calculation = true := by
    rcases hflag with h | h
    · exact (calcRecursive_extends A d.left d.my_op d.right d.st).1 h
    · exact h
  have e : calcExpression A expr st =
      Invocation.run A
        { left := MathExpression.construct (substr expr.get 0 (some op_pos)),
          my_op := substr expr.get op_pos (some 1),
          right := MathExpression.construct (substr expr.get (op_pos + 1) none),
          st := st } := by
    simp only [calcExpression, hpos, Invocation.run]
  rw [e]
  exact (nested_extends hd).1 hpost

/-- C8, at `8*+9` from the cleared state: the invocation `("8","*","")`, nested in the
top-level `("8*","+","9")`, sets the flag, and the flag is set at the end. -/
theorem C8_flag_never_cleared_witness :
    (calcExpression exactArith (MathExpression.construct "8*+9".toList)
      Env.initial).2.illegal_calculation = true := by
  refine (C8_flag_never_cleared exactArith).2.2 (MathExpression.construct "8*+9".toList)
    Env.initial 2 (by decide)
    { left := MathExpression.construct "8".toList,
      my_op := "*".toList,
      right := MathExpression.construct "".toList,
      st := { Env.initial with calls := [("8*".toList, "+".toList, "9".toList)] } }
    ?_ ?_
  · exact Relation.ReflTransGen.single
      (DirectCall.left
        { left := MathExpression.construct "8*".toList,
          my_op := "+".toList,
          right := MathExpression.construct "9".toList,
          st := Env.initial } 1 (by decide) (by decide))
  · right
    simp [Invocation.run, calcRecursive, calcRecursiveFuel, MathExpression.construct,
      MathExpression.get]

/-! ## C9 : the constructor and white space -/

/-- C9, the behaviour of the code : `MathExpression(raw).get()` is `raw` itself, for every
`raw`; it equals `raw` without its white space only when `raw` has none.  For
`raw = "1 + 2"` the held string is `"1 + 2"`, which contains a space, while the string
with the white space removed is `"1+2"`. -/
theorem C9_constructor_keeps_whitespace (raw : Str) :
    (MathExpression.construct raw).get = raw ∧
    ((MathExpression.construct raw).get = MathExpression.eraseRemoveIfIsspace raw ↔
      ∀ c ∈ raw, isspace c = false) ∧
    (MathExpression.construct "1 + 2".toList).get = "1 + 2".toList ∧
    ' ' ∈ (MathExpression.construct "1 + 2".toList).get ∧
    isspace ' ' = true ∧
    MathExpression.eraseRemoveIfIsspace "1 + 2".toList = "1+2".toList ∧
    (MathExpression.construct "1 + 2".toList).get ≠
      MathExpression.eraseRemoveIfIsspace "1 + 2".toList := by
  refine ⟨rfl, ?_, rfl, by decide, by decide, by decide, by decide⟩
  simp only [MathExpression.get_construct, MathExpression.eraseRemoveIfIsspace]
  constructor
  · intro h c hc
    have := (List.filter_eq_self.mp h.symm) c hc
    simpa using this
  · intro h
    exact (List.filter_eq_self.mpr (fun c hc => by simp [h c hc])).symm

/-! ## C10 : validation -/

theorem MathExpression.isValidLoop_first_disallowed (allowed_chars : List Char)
    (pre : Str) (c : Char) (post : Str) (cout : List Str)
    (hpre : ∀ x ∈ pre, x ∈ allowed_chars) (hc : c ∉ allowed_chars) :
    MathExpression.isValidLoop allowed_chars (pre ++ c :: post) cout =
      (false, cout ++ [MathExpression.invalidInputMessage c]) := by
  induction pre with
  | nil => simp [MathExpression.isValidLoop, hc]
  | cons a pre ih =>
    have ha : a ∈ allowed_chars := hpre a (by simp)
    simp only [List.cons_append, MathExpression.isValidLoop, ha, if_true]
    exact ih (fun x hx => hpre x (by simp [hx]))

theorem MathExpression.isValidLoop_all_allowed (allowed_chars : List Char)
    (str : Str) (cout : List Str) (h : ∀ x ∈ str, x ∈ allowed_chars) :
    MathExpression.isValidLoop allowed_chars str cout = (true, cout) := by
  induction str with
  | nil => rfl
  | cons a rest ih =>
    have ha : a ∈ allowed_chars := h a (by simp)
    simp only [MathExpression.isValidLoop, ha, if_true]
    exact ih (fun x hx => h x (by simp [hx]))

theorem MathExpression.isValidLoop_true_iff (allowed_chars : List Char)
    (str : Str) (cout : List Str) :
    (MathExpression.isValidLoop allowed_chars str cout).1 = true ↔
      ∀ x ∈ str, x ∈ allowed_chars := by
  induction str with
  | nil => simp [MathExpression.isValidLoop]
  | cons a rest ih =>
    by_cases ha : a ∈ allowed_chars
    · simp [MathExpression.isValidLoop, ha, ih]
    · simp [MathExpression.isValidLoop, ha]

/-- C10 : `isValid` on the held string `s`.  When `s` is empty it returns false after
printing the empty-input message.  When `s` is not empty and `c` is its first
disallowed character (every character before it is allowed), it returns false after
printing the invalid-input message for `c`.  When `s` is not empty and all its
characters are allowed it returns true and prints nothing.  So it returns true exactly
when `s` is non-empty with every character allowed, and on a non-empty `s` it fails
exactly when `s` has a disallowed character.  The report names the character: the
invalid-input message is the text `Error: c is not valid input.` between two line
breaks, its ninth character is `c`, two characters have different messages, and no
invalid-input message is the empty-input message `Error: You did not enter an input.`.
For `2+a` with `supported_characters` the text printed is `Error: a is not valid input.`,
so the reported character is `a`. -/
theorem C10_isValid (this : MathExpression) (allowed_chars : List Char) (cout : List Str) :
    (this.get = [] →
      this.isValid allowed_chars cout = (false, cout ++ [MathExpression.emptyInputMessage])) ∧
    (∀ (pre : Str) (c : Char) (post : Str), this.get = pre ++ c :: post →
      (∀ x ∈ pre, x ∈ allowed_chars) → c ∉ allowed_chars →
      this.isValid allowed_chars cout =
        (false, cout ++ [MathExpression.invalidInputMessage c])) ∧
    (this.get ≠ [] → (∀ x ∈ this.get, x ∈ allowed_chars) →
      this.isValid allowed_chars cout = (true, cout)) ∧
    ((this.isValid allowed_chars cout).1 = true ↔
      this.get ≠ [] ∧ ∀ x ∈ this.get, x ∈ allowed_chars) ∧
    (this.get ≠ [] →
      ((this.isValid allowed_chars cout).1 = false ↔ ∃ x ∈ this.get, x ∉ allowed_chars)) ∧
    (MathExpression.construct "2+a".toList).isValid supported_characters cout =
      (false, cout ++ [MathExpression.invalidInputMessage 'a']) ∧
    (∀ c : Char, MathExpression.invalidInputMessage c =
      "\nError: ".toList ++ c :: " is not valid input.\n".toList) ∧
    (∀ c : Char, (MathExpression.invalidInputMessage c)[8]? = some c) ∧
    (∀ c d : Char, MathExpression.invalidInputMessage c = MathExpression.invalidInputMessage d →
      c = d) ∧
    MathExpression.emptyInputMessage = "\nError: You did not enter an input.\n".toList ∧
    (∀ c : Char, MathExpression.emptyInputMessage ≠ MathExpression.invalidInputMessage c) ∧
    (MathExpression.construct "2+a".toList).isValid supported_characters cout =
      (false, cout ++ ["\nError: a is not valid input.\n".toList]) := by
  have hget : this.get = this.s := rfl
  refine ⟨?_, ?_, ?_, ?_, ?_, ?_, ?_, ?_, ?_, ?_, ?_, ?_⟩
  · intro h
    rw [hget] at h
    simp [MathExpression.isValid, h]
  · intro pre c post hs hpre hc
    rw [hget] at hs
    have hne : this.s ≠ [] := by rw [hs]; simp
    simp only [MathExpression.isValid, hne, if_false]
    rw [hs]
    exact MathExpression.isValidLoop_first_disallowed allowed_chars pre c post cout hpre hc
  · intro hne hall
    rw [hget] at hne hall
    simp only [MathExpression.isValid, hne, if_false]
    exact MathExpression.isValidLoop_all_allowed allowed_chars _ cout hall
  · rw [hget]
    by_cases hne : this.s = []
    · simp [MathExpression.isValid, hne]
    · simp only [MathExpression.isValid, hne, if_false, ne_eq, not_false_eq_true, true_and]
      exact MathExpression.isValidLoop_true_iff allowed_chars _ cout
  · intro hne
    rw [hget] at hne ⊢
    simp only [MathExpression.isValid, hne, if_false]
    rw [← Bool.not_eq_true, MathExpression.isValidLoop_true_iff]
    push_neg
    rfl
  · simp [MathExpression.isValid, MathExpression.isValidLoop, MathExpression.construct,
      supported_characters]
  · intro c
    simp [MathExpression.invalidInputMessage]
  · intro c
    simp [MathExpression.invalidInputMessage]
  · intro c d h
    have h8 := congrArg (fun m : Str => m[8]?) h
    simpa [MathExpression.invalidInputMessage] using h8
  · rfl
  · intro c h
    have hlen := congrArg List.length h
    simp [MathExpression.emptyInputMessage, MathExpression.invalidInputMessage] at hlen
  · simp [MathExpression.isValid, MathExpression.isValidLoop, MathExpression.construct,
      supported_characters, MathExpression.invalidInputMessage]

/-! ## C11 : a blank line -/

/-- C11, the behaviour of the code : for the raw line `" "` (one space) the held string
is still `" "`, not the empty string, and the space is a supported character: `isValid`
returns true and prints nothing, the line is no quit request, and `main` evaluates it
(to `atof " "`, which is 0, with the flag clear).  Only the empty raw line gets the
empty-input message. -/
theorem C11_blank_line_is_valid (cout : List Str) :
    MathExpression.eraseRemoveIfIsspace " ".toList = [] ∧
    (MathExpression.construct " ".toList).get = " ".toList ∧
    (MathExpression.construct " ".toList).isValid supported_characters cout = (true, cout) ∧
    mainLine exactArith " ".toList = LineOutcome.evaluated (some 0) Env.initial ∧
    (MathExpression.construct "".toList).isValid supported_characters cout =
      (false, cout ++ [MathExpression.emptyInputMessage]) := by
  refine ⟨by decide, rfl, ?_, ?_, ?_⟩
  · simp [MathExpression.isValid, MathExpression.isValidLoop, MathExpression.construct,
      supported_characters]
  · simp [mainLine, MathExpression.quitFlag, find, MathExpression.isValid,
      MathExpression.isValidLoop, MathExpression.construct, supported_characters,
      calcExpression, nextOperatorPosition, nextOperatorPositionLoop, find_first_of,
      supported_operations, MathExpression.get, exactArith, atofExact, readDigits, isspace,
      List.isPrefixOf]
  · simp [MathExpression.isValid, MathExpression.construct]

/-! ## C12 : quit detection -/

/-- Searching for a one-character string finds it exactly when the character occurs. -/
theorem find_single_ne_none (str : Str) (c : Char) : find str [c] ≠ none ↔ c ∈ str := by
  induction str with
  | nil => simp [find]
  | cons a rest ih =>
    by_cases hac : c = a
    · subst hac
      simp [find, List.isPrefixOf]
    · have hne : (c == a) = false := by simpa using hac
      cases hr : find rest [c] with
      | none =>
        have : c ∉ rest := fun hmem => (ih.mpr hmem) hr
        simp [find, List.isPrefixOf, hne, hr, hac, this]
      | some i =>
        have : c ∈ rest := ih.mp (by rw [hr]; simp)
        simp [find, List.isPrefixOf, hne, hr, this]

/-- C12 : `quitFlag` is true exactly when the held string contains the character `q` or
the character `Q`, at any position. -/
theorem C12_quitFlag (this : MathExpression) :
    this.quitFlag = true ↔ ('q' ∈ this.get ∨ 'Q' ∈ this.get) := by
  have hget : this.get = this.s := rfl
  rw [hget]
  unfold MathExpression.quitFlag
  simp only [find_single_ne_none]
  by_cases h : 'q' ∈ this.s ∨ 'Q' ∈ this.s
  · simp [h]
  · simp [h]

/-! ## The scanner in terms of operator ranks -/

theorem opRank_lt_four_iff (c : Char) : opRank c < 4 ↔ isOperator c := by
  unfold opRank isOperator
  by_cases h1 : c = '+'
  · simp [h1]
  · by_cases h2 : c = '-'
    · simp [h2]
    · by_cases h3 : c = '*'
      · simp [h3]
      · by_cases h4 : c = '/'
        · simp [h4]
        · simp [h1, h2, h3, h4]

theorem opRank_le_four (c : Char) : opRank c ≤ 4 := by
  unfold opRank
  split_ifs <;> omega

/-- The operator of rank `k` is the `k`-th entry of `supported_operations`. -/
theorem supported_operations_rank (k : Nat) (c : Char)
    (h : supported_operations[k]? = some [c]) : opRank c = k ∧ isOperator c := by
  have hk4 : k < 4 := by
    by_contra hge
    have : supported_operations[k]? = none := by
      apply List.getElem?_eq_none; simp [supported_operations]; omega
    rw [this] at h; cases h
  have : k = 0 ∨ k = 1 ∨ k = 2 ∨ k = 3 := by omega
  rcases this with e | e | e | e <;> subst e <;> simp [supported_operations] at h <;>
    subst h <;> exact ⟨by decide, by unfold isOperator; decide⟩

theorem supported_operations_of_operator (c : Char) (h : isOperator c) :
    supported_operations[opRank c]? = some [c] := by
  rcases h with e | e | e | e <;> subst e <;> decide

/-- Operators of equal rank are equal. -/
theorem opRank_injective (c d : Char) (hc : isOperator c) (hd : isOperator d)
    (h : opRank c = opRank d) : c = d := by
  rcases hc with e | e | e | e <;> subst e <;> rcases hd with f | f | f | f <;> subst f <;>
    first
      | rfl
      | (exfalso; revert h; decide)

/-- The scanner result in terms of ranks: the position holds an operator of the least
rank occurring in the string, and is the leftmost position holding that operator. -/
theorem nextOperatorPosition_rank (str : Str) (p : Nat)
    (h : nextOperatorPosition str = some p) :
    ∃ c, isOperator c ∧ p < str.length ∧ str[p]? = some c ∧
      (∀ d ∈ str, opRank c ≤ opRank d) ∧ ∀ i, i < p → str[i]? ≠ some c := by
  obtain ⟨k, c, hk, habs, hp, hc, hfirst⟩ := nextOperatorPosition_eq_some str p h
  obtain ⟨hrank, hop⟩ := supported_operations_rank k c hk
  refine ⟨c, hop, hp, hc, ?_, hfirst⟩
  intro d hd
  by_contra hlt
  have hlt2 : opRank d < k := by omega
  have hdop : isOperator d := (opRank_lt_four_iff d).mp (by
    have := (opRank_lt_four_iff c).mpr hop
    omega)
  exact habs (opRank d) d hlt2 (supported_operations_of_operator d hdop) hd

/-- A string with an operator character is split somewhere. -/
theorem nextOperatorPosition_isSome_of_operator (str : Str) (c : Char) (hc : c ∈ str)
    (hop : isOperator c) : ∃ p, nextOperatorPosition str = some p := by
  cases hp : nextOperatorPosition str with
  | some p => exact ⟨p, rfl⟩
  | none =>
    have h := (nextOperatorPosition_eq_none _).mp hp c hc
    rcases hop with e | e | e | e
    · exact absurd e h.1
    · exact absurd e h.2.1
    · exact absurd e h.2.2.1
    · exact absurd e h.2.2.2

/-- The scanner splits `l ++ c :: r` at `c` when every character of `l` has a larger
rank than `c` and no character of `r` a smaller one. -/
theorem nextOperatorPosition_at (l r : Str) (c : Char) (hop : isOperator c)
    (hl : ∀ x ∈ l, opRank c < opRank x) (hr : ∀ x ∈ r, opRank c ≤ opRank x) :
    nextOperatorPosition (l ++ c :: r) = some l.length := by
  obtain ⟨p, hp⟩ := nextOperatorPosition_isSome_of_operator (l ++ c :: r) c (by simp) hop
  obtain ⟨d, hdop, hlt, hd, hmin, hfirst⟩ := nextOperatorPosition_rank _ p hp
  have hdc : d = c := by
    have hle : opRank d ≤ opRank c := hmin c (by simp)
    have hmem : d ∈ l ++ c :: r := List.getElem?_mem hd
    rcases List.mem_append.mp hmem with h | h
    · have := hl d h; omega
    · rcases List.mem_cons.mp h with h | h
      · exact h
      · exact (opRank_injective c d hop hdop (by have := hr d h; omega)).symm
  subst hdc
  rw [hp]
  rcases Nat.lt_trichotomy p l.length with h | h | h
  · rw [List.getElem?_append_left h] at hd
    have := hl d (List.getElem?_mem hd)
    omega
  · rw [h]
  · have hget : (l ++ d :: r)[l.length]? = some d := by
      rw [List.getElem?_append_right (le_refl _)]
      simp
    exact absurd hget (hfirst l.length h)

/-- The state in which a `calcRecursive` call ends is a later state of the one in which
it has logged itself. -/
theorem calcRecursive_extends_entry {α : Type} (A : Arith α) (left : MathExpression)
    (my_op : Str) (right : MathExpression) (st : Env) :
    Env.Extends { st with calls := st.calls ++ [(left.get, my_op, right.get)] }
      (calcRecursive A left my_op right st).2 := by
  by_cases hmiss : my_op ≠ [] ∧ (left.get = [] ∨ right.get = [])
  · rw [calcRecursive_eq, if_pos hmiss]
    exact ⟨fun _ => rfl, List.prefix_append _ _, List.prefix_refl _⟩
  · exact (calcExpression_extends A left _).trans
      (calcRecursive_extends_operands A left my_op right st hmiss).1

/-- The first entry that a `calcRecursive` call adds to the call log is the call itself. -/
theorem calcRecursive_first_call {α : Type} (A : Arith α) (left : MathExpression)
    (my_op : Str) (right : MathExpression) (st : Env) :
    ((calcRecursive A left my_op right st).2.calls.drop st.calls.length).head? =
      some (left.get, my_op, right.get) := by
  obtain ⟨t, ht⟩ := (calcRecursive_extends_entry A left my_op right st).2.2
  rw [← ht]
  simp

/-! ## C13 : `10+3-2-5` -/

/-- C13, refuted as stated : `calcExpression("10+3-2-5")` does split at `+` into `10` and
`3-2-5`, but it returns 16, not the value 6 of left-to-right evaluation. -/
theorem C13_counterexample :
    nextOperatorPosition "10+3-2-5".toList = some 2 ∧
    (calcExpression exactArith (MathExpression.construct "10+3-2-5".toList)
      Env.initial).1 = some 16 ∧
    (calcExpression exactArith (MathExpression.construct "10+3-2-5".toList)
      Env.initial).1 ≠ some 6 ∧
    ((10 : ℚ) + 3 - 2 - 5 = 6) := by
  have hval : (calcExpression exactArith (MathExpression.construct "10+3-2-5".toList)
      Env.initial).1 = some 16 := by
    simp [calcExpression, calcRecursive, calcRecursiveFuel, nextOperatorPosition,
      nextOperatorPositionLoop, find_first_of, supported_operations, substr,
      MathExpression.construct, MathExpression.get, doTheCalculation, exactArith, atofExact,
      readDigits, isspace, Env.initial]
    norm_num
  refine ⟨by decide, hval, ?_, by norm_num⟩
  rw [hval]
  norm_num

/-- C13, amended : `calcExpression("10+3-2-5")` splits at `+` into `10` and `3-2-5`; the
right side is split at its FIRST `-` into `3` and `2-5`, and `2-5` into `2` and `5`; so
`3-2-5` evaluates to `3-(2-5) = 6` and the call returns `10+(3-(2-5)) = 16`, with the flag
clear.  In every arithmetic the value is `10 + (3 - (2 - 5))`. -/
theorem C13_splits_and_value :
    calcExpression exactArith (MathExpression.construct "10+3-2-5".toList) Env.initial =
      (some 16,
        { illegal_calculation := false,
          cout := [],
          calls := [("10".toList, "+".toList, "3-2-5".toList),
                    ("3".toList, "-".toList, "2-5".toList),
                    ("2".toList, "-".toList, "5".toList)] }) ∧
    (calcExpression exactArith (MathExpression.construct "3-2-5".toList) Env.initial).1 =
      some 6 ∧
    (∀ (α : Type) (A : Arith α) (st : Env),
      calcExpression A (MathExpression.construct "10+3-2-5".toList) st =
        (some (A.add (A.atof "10".toList)
            (A.sub (A.atof "3".toList) (A.sub (A.atof "2".toList) (A.atof "5".toList)))),
          { st with calls := st.calls ++
              [("10".toList, "+".toList, "3-2-5".toList),
               ("3".toList, "-".toList, "2-5".toList),
               ("2".toList, "-".toList, "5".toList)] })) := by
  refine ⟨?_, ?_, ?_⟩
  · simp [calcExpression, calcRecursive, calcRecursiveFuel, nextOperatorPosition,
      nextOperatorPositionLoop, find_first_of, supported_operations, substr,
      MathExpression.construct, MathExpression.get, doTheCalculation, exactArith, atofExact,
      readDigits, isspace, Env.initial]
    norm_num
  · simp [calcExpression, calcRecursive, calcRecursiveFuel, nextOperatorPosition,
      nextOperatorPositionLoop, find_first_of, supported_operations, substr,
      MathExpression.construct, MathExpression.get, doTheCalculation, exactArith, atofExact,
      readDigits, isspace, Env.initial]
    norm_num
  · intro α A st
    simp [calcExpression, calcRecursive, calcRecursiveFuel, nextOperatorPosition,
      nextOperatorPositionLoop, find_first_of, supported_operations, substr,
      MathExpression.construct, MathExpression.get, doTheCalculation]

/-! ## C15 : the operator of the first split -/

/-- C15, refuted as stated : in `2+3*4` the operators `+` and `*` occur, and `*` is the
later of the two in `supported_operations`; yet the first split is at `+`: the first
`calcRecursive` call is `("2","+","3*4")`. -/
theorem C15_counterexample :
    '+' ∈ "2+3*4".toList ∧ '*' ∈ "2+3*4".toList ∧
    (∀ d ∈ "2+3*4".toList, isOperator d → opRank d ≤ opRank '*') ∧
    nextOperatorPosition "2+3*4".toList = some 1 ∧
    (calcExpression exactArith (MathExpression.construct "2+3*4".toList)
      Env.initial).2.calls.head? = some ("2".toList, "+".toList, "3*4".toList) ∧
    "+".toList ≠ "*".toList := by
  refine ⟨by decide, by decide, ?_, by decide, ?_, by decide⟩
  · intro d hd hop
    have hd2 : d = '2' ∨ d = '+' ∨ d = '3' ∨ d = '*' ∨ d = '4' := by simpa using hd
    rcases hd2 with e | e | e | e | e <;> subst e <;> revert hop <;> unfold isOperator <;>
      decide
  · simp [calcExpression, calcRecursive, calcRecursiveFuel, nextOperatorPosition,
      nextOperatorPositionLoop, find_first_of, supported_operations, substr,
      MathExpression.construct, MathExpression.get, doTheCalculation, exactArith, atofExact,
      readDigits, isspace, Env.initial]

/-- C15, amended : for every expression that contains an operator, the operator on which
`calcExpression` splits first is the one appearing FIRST in `supported_operations` among
the operators that occur in the expression (no occurring operator has a smaller rank),
and the split is at its leftmost occurrence: `calcExpression` is the call of
`calcRecursive` on the pieces around that position, and this call is the first one
logged. -/
theorem C15_first_split {α : Type} (A : Arith α) (expr : MathExpression) (st : Env)
    (hop : ∃ c ∈ expr.get, isOperator c) :
    ∃ (p : Nat) (c : Char), isOperator c ∧ expr.get[p]? = some c ∧
      (∀ d ∈ expr.get, isOperator d → opRank c ≤ opRank d) ∧
      (∀ i, i < p → expr.get[i]? ≠ some c) ∧
      nextOperatorPosition expr.get = some p ∧
      calcExpression A expr st =
        calcRecursive A { s := expr.get.take p } [c] { s := expr.get.drop (p + 1) } st ∧
      ((calcExpression A expr st).2.calls.drop st.calls.length).head? =
        some (expr.get.take p, [c], expr.get.drop (p + 1)) := by
  obtain ⟨c0, hc0, hop0⟩ := hop
  obtain ⟨p, hp⟩ := nextOperatorPosition_isSome_of_operator expr.get c0 hc0 hop0
  obtain ⟨c, hcop, hlt, hc, hmin, hfirst⟩ := nextOperatorPosition_rank _ p hp
  have hget : expr.get[p] = c := by
    rw [List.getElem?_eq_getElem hlt] at hc
    exact Option.some.inj hc
  have hopstr : (expr.get.drop p).take 1 = [c] := by
    rw [List.drop_eq_getElem_cons hlt, hget]; rfl
  have hsplit := calcExpression_split A expr st p hp
  rw [hopstr] at hsplit
  refine ⟨p, c, hcop, hc, fun d hd _ => hmin d hd, hfirst, hp, hsplit, ?_⟩
  rw [hsplit]
  exact calcRecursive_first_call A _ _ _ st

/-- C15 amended, at `2+3*4`. -/
theorem C15_first_split_witness :
    (∃ c ∈ (MathExpression.construct "2+3*4".toList).get, isOperator c) ∧
    ∃ (p : Nat) (c : Char), isOperator c ∧
      (MathExpression.construct "2+3*4".toList).get[p]? = some c ∧
      (∀ d ∈ (MathExpression.construct "2+3*4".toList).get,
        isOperator d → opRank c ≤ opRank d) ∧
      nextOperatorPosition (MathExpression.construct "2+3*4".toList).get = some p := by
  refine ⟨⟨'+', by decide, Or.inl rfl⟩, ?_⟩
  obtain ⟨p, c, h1, h2, h3, -, h5, -, -⟩ :=
    C15_first_split exactArith (MathExpression.construct "2+3*4".toList) Env.initial
      ⟨'+', by decide, Or.inl rfl⟩
  exact ⟨p, c, h1, h2, h3, h5⟩

/-! ## C16 : the evaluation does not depend on the state it starts in -/

theorem Env.append_assoc (st d e : Env) : (st.append d).append e = st.append (d.append e) := by
  simp [Env.append, Bool.or_assoc, List.append_assoc]

theorem Env.append_initial (st : Env) : st.append Env.initial = st := by
  cases st
  simp [Env.append, Env.initial]

theorem Env.initial_append (d : Env) : Env.initial.append d = d := by
  cases d
  simp [Env.append, Env.initial]

theorem doTheCalculation_frame {α : Type} (A : Arith α) (my_op : Str) (l r : α)
    (st d : Env) :
    doTheCalculation A my_op l r (st.append d) =
      ((doTheCalculation A my_op l r d).1, st.append (doTheCalculation A my_op l r d).2) := by
  unfold doTheCalculation
  split_ifs <;> simp [Env.append]

theorem parseArgument_frame {α : Type} (A : Arith α)
    (call : MathExpression → Str → MathExpression → Env → Option α × Env)
    (h : ∀ l op r st d, call l op r (Env.append st d) =
      ((call l op r d).1, Env.append st (call l op r d).2))
    (expr : MathExpression) (st d : Env) :
    parseArgument A call expr (st.append d) =
      ((parseArgument A call expr d).1, st.append (parseArgument A call expr d).2) := by
  unfold parseArgument
  cases nextOperatorPosition expr.get with
  | none => rfl
  | some p => exact h _ _ _ _ _

theorem calcRecursiveFuel_frame {α : Type} (A : Arith α) :
    ∀ (n : Nat) (left : MathExpression) (my_op : Str) (right : MathExpression) (st d : Env),
      calcRecursiveFuel A n left my_op right (st.append d) =
        ((calcRecursiveFuel A n left my_op right d).1,
          st.append (calcRecursiveFuel A n left my_op right d).2) := by
  intro n
  induction n with
  | zero => intro left my_op right st d; rfl
  | succ n ih =>
    intro left my_op right st d
    have hentry : ({ st.append d with
        calls := (st.append d).calls ++ [(left.get, my_op, right.get)] } : Env) =
        st.append { d with calls := d.calls ++ [(left.get, my_op, right.get)] } := by
      simp [Env.append, List.append_assoc]
    rw [calcRecursiveFuel_succ, calcRecursiveFuel_succ, hentry]
    split_ifs with hmiss
    · simp [Env.append, List.append_assoc]
    · rw [parseArgument_frame A _ ih left, parseArgument_frame A _ ih right]
      simp only []
      split
      · rename_i lv rv hl hr
        rw [doTheCalculation_frame]
      · rfl

theorem calcRecursive_frame {α : Type} (A : Arith α) (left : MathExpression) (my_op : Str)
    (right : MathExpression) (st d : Env) :
    calcRecursive A left my_op right (st.append d) =
      ((calcRecursive A left my_op right d).1,
        st.append (calcRecursive A left my_op right d).2) :=
  calcRecursiveFuel_frame A _ left my_op right st d

/-- An evaluation started in `st.append d` makes the same changes, and returns the same
value, as the evaluation started in `d`. -/
theorem calcExpression_frame {α : Type} (A : Arith α) (expr : MathExpression) (st d : Env) :
    calcExpression A expr (st.append d) =
      ((calcExpression A expr d).1, st.append (calcExpression A expr d).2) := by
  rw [calcExpression_eq_parseArgument, calcExpression_eq_parseArgument]
  exact parseArgument_frame A _ (calcRecursive_frame A) expr st d

/-- An evaluation started in any state `st`, in terms of the one started in the cleared
and empty state. -/
theorem calcExpression_from_initial {α : Type} (A : Arith α) (expr : MathExpression)
    (st : Env) :
    calcExpression A expr st =
      ((calcExpression A expr Env.initial).1,
        st.append (calcExpression A expr Env.initial).2) := by
  have h := calcExpression_frame A expr st Env.initial
  rwa [Env.append_initial] at h

/-- C16 : the evaluation is a function of the expression and free of hidden state.  The
value returned is the same from every starting state, whatever the flag, the output and
the call log are; two runs that start with the flag clear end with the same flag; the
final flag is the initial flag or-ed with the flag of the run from the cleared state
(the flag is written, never read); and the run from any state `st` is the run from the
cleared, empty state with its output and its calls appended to those of `st`. -/
theorem C16_deterministic {α : Type} (A : Arith α) (expr : MathExpression) :
    (∀ st1 st2 : Env, (calcExpression A expr st1).1 = (calcExpression A expr st2).1) ∧
    (∀ st1 st2 : Env, st1.illegal_calculation = false → st2.illegal_calculation = false →
      (calcExpression A expr st1).2.illegal_calculation =
        (calcExpression A expr st2).2.illegal_calculation) ∧
    (∀ st : Env, (calcExpression A expr st).2.illegal_calculation =
      (st.illegal_calculation ||
        (calcExpression A expr Env.initial).2.illegal_calculation)) ∧
    (∀ st : Env, calcExpression A expr st =
      ((calcExpression A expr Env.initial).1,
        { illegal_calculation := st.illegal_calculation ||
            (calcExpression A expr Env.initial).2.illegal_calculation,
          cout := st.cout ++ (calcExpression A expr Env.initial).2.cout,
          calls := st.calls ++ (calcExpression A expr Env.initial).2.calls })) := by
  refine ⟨?_, ?_, ?_, ?_⟩
  · intro st1 st2
    rw [calcExpression_from_initial A expr st1, calcExpression_from_initial A expr st2]
  · intro st1 st2 h1 h2
    rw [calcExpression_from_initial A expr st1, calcExpression_from_initial A expr st2]
    simp [Env.append, h1, h2]
  · intro st
    rw [calcExpression_from_initial A expr st]
    rfl
  · intro st
    exact calcExpression_from_initial A expr st

/-! ## C18 : every call has an operator and returns a value -/

/-- The operator string cut out at the scanner position is a one-character operator. -/
theorem substr_operator (str : Str) (p : Nat) (h : nextOperatorPosition str = some p) :
    ∃ c, isOperator c ∧ substr str p (some 1) = [c] := by
  obtain ⟨c, hc, hop, -, -⟩ := split_pieces str p h
  exact ⟨c, hc, hop⟩

/-- A call whose operator string is one of the four operators returns a value. -/
theorem calcRecursive_isSome {α : Type} (A : Arith α) (left right : MathExpression)
    (c : Char) (hc : isOperator c) (st : Env) :
    ∃ v, (calcRecursive A left [c] right st).1 = some v := by
  rw [calcRecursive_eq]
  split_ifs with hmiss
  · exact ⟨_, rfl⟩
  · obtain ⟨lv, hl⟩ := calcExpression_isSome A _ left
      { st with calls := st.calls ++ [(left.get, [c], right.get)] } (le_refl _)
    obtain ⟨rv, hr⟩ := calcExpression_isSome A _ right
      (calcExpression A left
        { st with calls := st.calls ++ [(left.get, [c], right.get)] }).2 (le_refl _)
    rw [hl, hr]
    exact doTheCalculation_isSome A c hc lv rv _

/-- Every invocation made by an invocation has a one-character operator string. -/
theorem DirectCall.operator {α : Type} {A : Arith α} {c d : Invocation}
    (h : DirectCall A c d) : ∃ x, isOperator x ∧ d.my_op = [x] := by
  cases h with
  | left op_pos hpass hpos => exact substr_operator _ _ hpos
  | right op_pos hpass hpos => exact substr_operator _ _ hpos

/-- C18 : when `calcExpression(expr)` splits, the split index is inside the string, and
every `calcRecursive` invocation `d` reachable from the top-level one (at any depth, the
top-level one included) has as `my_op` one of the one-character strings of
`supported_operations`, and returns a value: it leaves through the missing-operand
return or through one of the four combine branches, never through the end of the
function.  The indices it passes to `substr` are scanner positions of its operands,
which are inside them.  `calcExpression` itself returns a value on every string. -/
theorem C18_calls_well_formed {α : Type} (A : Arith α) (expr : MathExpression) (st : Env) :
    (∃ v, (calcExpression A expr st).1 = some v) ∧
    (∀ (str : Str) (p : Nat), nextOperatorPosition str = some p →
      p < str.length ∧ p + 1 ≤ str.length) ∧
    (∀ op_pos : Nat, nextOperatorPosition expr.get = some op_pos →
      ∀ d : Invocation,
        Relation.ReflTransGen (DirectCall A)
          { left := MathExpression.construct (substr expr.get 0 (some op_pos)),
            my_op := substr expr.get op_pos (some 1),
            right := MathExpression.construct (substr expr.get (op_pos + 1) none),
            st := st } d →
        d.my_op ∈ supported_operations ∧
        (∃ c, isOperator c ∧ d.my_op = [c]) ∧
        (∃ v, (d.run A).1 = some v) ∧
        ((d.my_op ≠ [] ∧ (d.left.get = [] ∨ d.right.get = [])) ∨
          d.my_op = ['+'] ∨ d.my_op = ['-'] ∨ d.my_op = ['*'] ∨ d.my_op = ['/'])) := by
  refine ⟨calcExpression_isSome A _ expr st (le_refl _), ?_, ?_⟩
  · intro str p hp
    have := (nextOperatorPosition_lt str p hp).1
    exact ⟨this, this⟩
  · intro op_pos hpos d hd
    have hop : ∃ c, isOperator c ∧ d.my_op = [c] := by
      cases hd with
      | refl => exact substr_operator _ _ hpos
      | tail _ hstep => exact hstep.operator
    obtain ⟨c, hc, hdc⟩ := hop
    refine ⟨?_, ⟨c, hc, hdc⟩, ?_, ?_⟩
    · rw [hdc]
      rcases hc with e | e | e | e <;> subst e <;> simp [supported_operations]
    · unfold Invocation.run
      rw [hdc]
      exact calcRecursive_isSome A _ _ c hc _
    · right
      rw [hdc]
      rcases hc with e | e | e | e <;> subst e <;> simp

/-! ## The changes made by one call, in terms of those of its operands -/

theorem isOperatorChar_iff (c : Char) : isOperatorChar c = true ↔ isOperator c := by
  simp [isOperatorChar, isOperator, or_assoc]

theorem doTheCalculation_calls {α : Type} (A : Arith α) (my_op : Str) (l r : α) (st : Env) :
    (doTheCalculation A my_op l r st).2.calls = st.calls := by
  unfold doTheCalculation
  split_ifs <;> rfl

/-- A call with an operator and two non-empty operands: both operands have a value, the
same from every state, and the call is the combination step applied to these values in
the state obtained by appending to the log entry of the call the changes of the left
operand and then those of the right operand. -/
theorem calcRecursive_operands {α : Type} (A : Arith α) (left right : MathExpression)
    (my_op : Str) (hl : left.get ≠ []) (hr : right.get ≠ []) (st : Env) :
    ∃ lv rv, (calcExpression A left Env.initial).1 = some lv ∧
      (calcExpression A right Env.initial).1 = some rv ∧
      calcRecursive A left my_op right st =
        doTheCalculation A my_op lv rv
          (({ st with calls := st.calls ++ [(left.get, my_op, right.get)] }.append
            (calcExpression A left Env.initial).2).append
            (calcExpression A right Env.initial).2) := by
  obtain ⟨lv, hlv⟩ := calcExpression_isSome A _ left Env.initial (le_refl _)
  obtain ⟨rv, hrv⟩ := calcExpression_isSome A _ right Env.initial (le_refl _)
  refine ⟨lv, rv, hlv, hrv, ?_⟩
  have hmiss : ¬ (my_op ≠ [] ∧ (left.get = [] ∨ right.get = [])) := by
    simp [hl, hr]
  rw [calcRecursive_eq, if_neg hmiss]
  have e1 := calcExpression_from_initial A left
    { st with calls := st.calls ++ [(left.get, my_op, right.get)] }
  have e2 := calcExpression_from_initial A right
    (Env.append { st with calls := st.calls ++ [(left.get, my_op, right.get)] }
      (calcExpression A left Env.initial).2)
  rw [e1]
  simp only []
  rw [e2]
  simp only [hlv, hrv]

/-! ## C17 : termination, depth and number of calls -/

/-- The size of an invocation: the length of the string that was split to make it. -/
theorem DirectCall.shorter {α : Type} {A : Arith α} {c d : Invocation}
    (h : DirectCall A c d) :
    d.left.get.length + d.right.get.length + 1 = c.left.get.length ∨
      d.left.get.length + d.right.get.length + 1 = c.right.get.length := by
  cases h with
  | left op_pos hpass hpos =>
    left
    simpa using split_length _ _ (nextOperatorPosition_lt _ _ hpos).1
  | right op_pos hpass hpos =>
    right
    simpa using split_length _ _ (nextOperatorPosition_lt _ _ hpos).1

theorem NestedAtDepth.bound {α : Type} {A : Arith α} {n : Nat} {c d : Invocation}
    (h : NestedAtDepth A n c d) :
    n + (d.left.get.length + d.right.get.length) ≤
      c.left.get.length + c.right.get.length + 1 := by
  induction h with
  | top c => omega
  | step _ hstep ih =>
    rcases hstep.shorter with e | e <;> omega

theorem operatorCount_append (a b : Str) :
    operatorCount (a ++ b) = operatorCount a + operatorCount b := by
  simp [operatorCount, List.countP_append]

theorem operatorCount_cons_operator (c : Char) (s : Str) (hc : isOperator c) :
    operatorCount (c :: s) = operatorCount s + 1 := by
  have : isOperatorChar c = true := (isOperatorChar_iff c).mpr hc
  simp [operatorCount, List.countP_cons, this]

/-- The number of calls logged by an evaluation is at most the number of operator
characters of the string. -/
theorem calls_le_operatorCount {α : Type} (A : Arith α) :
    ∀ (k : Nat) (expr : MathExpression), expr.get.length ≤ k →
      (calcExpression A expr Env.initial).2.calls.length ≤ operatorCount expr.get := by
  intro k
  induction k with
  | zero =>
    intro expr hk
    have hnil : expr.get = [] := List.length_eq_zero.mp (by omega)
    rw [calcExpression_leaf A expr _ (by rw [hnil]; rfl)]
    simp [Env.initial]
  | succ k ih =>
    intro expr hk
    cases hp : nextOperatorPosition expr.get with
    | none =>
      rw [calcExpression_leaf A expr _ hp]
      simp [Env.initial]
    | some p =>
      obtain ⟨c, hc, hop, hsplit, hlen⟩ := split_pieces expr.get p hp
      have hcount : operatorCount expr.get =
          operatorCount (expr.get.take p) + (operatorCount (expr.get.drop (p + 1)) + 1) := by
        conv_lhs => rw [hsplit]
        rw [operatorCount_append, operatorCount_cons_operator c _ hc]
      rw [calcExpression_split A expr _ p hp, hop]
      by_cases hmiss : (([c] : Str) ≠ [] ∧
          ((MathExpression.mk (expr.get.take p)).get = [] ∨
            (MathExpression.mk (expr.get.drop (p + 1))).get = []))
      · rw [calcRecursive_eq, if_pos hmiss]
        simp only [show Env.initial.calls = [] from rfl, List.nil_append,
          List.length_singleton]
        omega
      · have hne : (MathExpression.mk (expr.get.take p)).get ≠ [] ∧
            (MathExpression.mk (expr.get.drop (p + 1))).get ≠ [] := by
          constructor
          · intro e; exact hmiss ⟨by simp, Or.inl e⟩
          · intro e; exact hmiss ⟨by simp, Or.inr e⟩
        obtain ⟨lv, rv, -, -, heq⟩ := calcRecursive_operands A
          (MathExpression.mk (expr.get.take p)) (MathExpression.mk (expr.get.drop (p + 1)))
          [c] hne.1 hne.2 Env.initial
        rw [heq, doTheCalculation_calls]
        have h1 := ih (MathExpression.mk (expr.get.take p))
          (by simp only [MathExpression.get_mk]; omega)
        have h2 := ih (MathExpression.mk (expr.get.drop (p + 1)))
          (by simp only [MathExpression.get_mk]; omega)
        simp only [MathExpression.get_mk] at h1 h2
        simp only [Env.append, show Env.initial.calls = [] from rfl, List.nil_append,
          List.length_append, List.length_singleton, MathExpression.get_mk]
        omega

/-- C17 : `calcExpression` returns a value on every string; a recursion budget of the
total operand length plus one is never exhausted (`calcRecursiveFuel` with any such
budget is `calcRecursive`); the two pieces of every split are strictly shorter than the
string that is split, at the top level and in every nested call; a chain of `n` nested
invocations below the top-level split has `n` at most the length of the input; and the
number of `calcRecursive` invocations made is at most the number of operator characters
of the input. -/
theorem C17_termination {α : Type} (A : Arith α) (expr : MathExpression) (st : Env) :
    (∃ v, (calcExpression A expr st).1 = some v) ∧
    (∀ (n : Nat) (left : MathExpression) (my_op : Str) (right : MathExpression) (st0 : Env),
      left.get.length + right.get.length + 1 ≤ n →
      calcRecursiveFuel A n left my_op right st0 = calcRecursive A left my_op right st0) ∧
    (∀ op_pos : Nat, nextOperatorPosition expr.get = some op_pos →
      (substr expr.get 0 (some op_pos)).length < expr.get.length ∧
      (substr expr.get (op_pos + 1) none).length < expr.get.length) ∧
    (∀ c d : Invocation, DirectCall A c d →
      (d.left.get.length < c.left.get.length ∧ d.right.get.length < c.left.get.length) ∨
      (d.left.get.length < c.right.get.length ∧ d.right.get.length < c.right.get.length)) ∧
    (∀ op_pos : Nat, nextOperatorPosition expr.get = some op_pos →
      ∀ (n : Nat) (d : Invocation),
        NestedAtDepth A n
          { left := MathExpression.construct (substr expr.get 0 (some op_pos)),
            my_op := substr expr.get op_pos (some 1),
            right := MathExpression.construct (substr expr.get (op_pos + 1) none),
            st := st } d →
        n ≤ expr.get.length) ∧
    (∃ new : List (Str × Str × Str),
      (calcExpression A expr st).2.calls = st.calls ++ new ∧
      new.length ≤ operatorCount expr.get) := by
  refine ⟨calcExpression_isSome A _ expr st (le_refl _), ?_, ?_, ?_, ?_, ?_⟩
  · intro n left my_op right st0 hn
    exact calcRecursiveFuel_stable A n _ left my_op right st0 hn (le_refl _)
  · intro op_pos hpos
    have := split_length _ _ (nextOperatorPosition_lt _ _ hpos).1
    omega
  · intro c d h
    rcases h.shorter with e | e
    · left; omega
    · right; omega
  · intro op_pos hpos n d hd
    have hb := hd.bound
    have := split_length _ _ (nextOperatorPosition_lt _ _ hpos).1
    simp only [MathExpression.get_construct] at hb
    omega
  · refine ⟨(calcExpression A expr Env.initial).2.calls, ?_,
      calls_le_operatorCount A _ expr (le_refl _)⟩
    rw [calcExpression_from_initial A expr st]
    rfl

/-! ## C14 : binding order -/

/-- The evaluation of `l c r` when the scanner picks the operator `c` between `l` and
`r`: both sides have a value, and the result is the combination step applied to them. -/
theorem calcExpression_cut {α : Type} (A : Arith α) (expr : MathExpression) (l r : Str)
    (c : Char) (he : expr.get = l ++ c :: r) (hop : isOperator c)
    (hl : ∀ x ∈ l, opRank c < opRank x) (hr : ∀ x ∈ r, opRank c ≤ opRank x)
    (hl0 : l ≠ []) (hr0 : r ≠ []) (st : Env) :
    ∃ lv rv, (calcExpression A { s := l } Env.initial).1 = some lv ∧
      (calcExpression A { s := r } Env.initial).1 = some rv ∧
      calcExpression A expr st =
        doTheCalculation A [c] lv rv
          (({ st with calls := st.calls ++ [(l, [c], r)] }.append
            (calcExpression A { s := l } Env.initial).2).append
            (calcExpression A { s := r } Env.initial).2) := by
  have hp := nextOperatorPosition_at l r c hop hl hr
  rw [← he] at hp
  have e1 : List.take l.length (l ++ c :: r) = l := by simp
  have e2 : List.take 1 (List.drop l.length (l ++ c :: r)) = [c] := by simp
  have e3 : List.drop (l.length + 1) (l ++ c :: r) = r := by
    rw [← List.drop_drop]; simp
  obtain ⟨lv, rv, hlv, hrv, heq⟩ := calcRecursive_operands A { s := l } { s := r } [c]
    (by simpa using hl0) (by simpa using hr0) st
  refine ⟨lv, rv, hlv, hrv, ?_⟩
  rw [calcExpression_split A expr st _ hp, he, e1, e2, e3, heq]
  rfl

/-- Away from a division by zero the combination step is the arithmetic operation and
leaves the state alone. -/
theorem doTheCalculation_applyOp {α : Type} (A : Arith α) (c : Char) (hop : isOperator c)
    (l r : α) (st : Env) (hz : c = '/' → A.eqZero r = false) :
    doTheCalculation A [c] l r st = (some (applyOp A c l r), st) := by
  rcases hop with e | e | e | e <;> subst e
  · simp [doTheCalculation, applyOp]
  · simp [doTheCalculation, applyOp]
  · simp [doTheCalculation, applyOp]
  · simp [doTheCalculation, applyOp, hz rfl]

/-- The characters of a literal are no operators. -/
theorem isLiteral_rank (str : Str) (h : isLiteral str = true) :
    str ≠ [] ∧ ∀ x ∈ str, opRank x = 4 := by
  obtain ⟨h0, hfree⟩ := isLiteral_operator_free str h
  refine ⟨h0, fun x hx => ?_⟩
  obtain ⟨n1, n2, n3, n4⟩ := hfree x hx
  simp [opRank, n1, n2, n3, n4]

theorem operator_free_of_rank (str : Str) (h : ∀ x ∈ str, opRank x = 4) :
    ∀ x ∈ str, x ≠ '+' ∧ x ≠ '-' ∧ x ≠ '*' ∧ x ≠ '/' := by
  intro x hx
  have := h x hx
  refine ⟨?_, ?_, ?_, ?_⟩ <;> intro e <;> subst e <;> revert this <;> decide

/-- C14 : the binding order is `/ * - +`.  For literals `a`, `b`, `c` and operators `op1`
before `op2` in `supported_operations`: `a op1 b op2 c` is split at `op1` and then its
right side at `op2`, and evaluates to `a op1 (b op2 c)`; `a op2 b op1 c` is split at `op1`
and then its left side at `op2`, and evaluates to `(a op2 b) op1 c`; in both cases
provided the divisor is not zero when `op2` is `/` (`op1` cannot be `/`).  The state
changes only by the two logged calls.  `10-3+2` evaluates to `(10-3)+2 = 9`. -/
theorem C14_binding_order {α : Type} (A : Arith α) (a b c : Str) (op1 op2 : Char) (st : Env)
    (ha : isLiteral a = true) (hb : isLiteral b = true) (hc : isLiteral c = true)
    (h1 : isOperator op1) (h2 : isOperator op2) (hlt : opRank op1 < opRank op2) :
    ((op2 = '/' → A.eqZero (A.atof c) = false) →
      calcExpression A (MathExpression.construct (a ++ op1 :: (b ++ op2 :: c))) st =
        (some (applyOp A op1 (A.atof a) (applyOp A op2 (A.atof b) (A.atof c))),
          { st with calls := st.calls ++
              [(a, [op1], b ++ op2 :: c), (b, [op2], c)] })) ∧
    ((op2 = '/' → A.eqZero (A.atof b) = false) →
      calcExpression A (MathExpression.construct ((a ++ op2 :: b) ++ op1 :: c)) st =
        (some (applyOp A op1 (applyOp A op2 (A.atof a) (A.atof b)) (A.atof c)),
          { st with calls := st.calls ++
              [(a ++ op2 :: b, [op1], c), (a, [op2], b)] })) ∧
    calcExpression exactArith (MathExpression.construct "10-3+2".toList) Env.initial =
      (some 9,
        { Env.initial with
          calls := [("10-3".toList, "+".toList, "2".toList),
                    ("10".toList, "-".toList, "3".toList)] }) := by
  obtain ⟨ha0, har⟩ := isLiteral_rank a ha
  obtain ⟨hb0, hbr⟩ := isLiteral_rank b hb
  obtain ⟨hc0, hcr⟩ := isLiteral_rank c hc
  have r1 : opRank op1 < 4 := (opRank_lt_four_iff op1).mpr h1
  have r2 : opRank op2 < 4 := (opRank_lt_four_iff op2).mpr h2
  have h1ne : op1 ≠ '/' := by
    intro e; subst e
    have : opRank '/' = 3 := by decide
    omega
  have leaf : ∀ (s : Str), (∀ x ∈ s, opRank x = 4) → ∀ st0 : Env,
      calcExpression A { s := s } st0 = (some (A.atof s), st0) := fun s hs st0 =>
    calcExpression_leaf A { s := s } st0
      ((nextOperatorPosition_eq_none s).mpr (operator_free_of_rank s hs))
  have binary : ∀ (x y : Str), x ≠ [] → y ≠ [] → (∀ z ∈ x, opRank z = 4) →
      (∀ z ∈ y, opRank z = 4) → (op2 = '/' → A.eqZero (A.atof y) = false) →
      calcExpression A { s := x ++ op2 :: y } Env.initial =
        (some (applyOp A op2 (A.atof x) (A.atof y)),
          { Env.initial with calls := [(x, [op2], y)] }) := by
    intro x y hx0 hy0 hx hy hz
    rw [calcExpression_binary A x y op2 h2 (operator_free_of_rank x hx)
      (operator_free_of_rank y hy) hx0 hy0 { s := x ++ op2 :: y } rfl,
      doTheCalculation_applyOp A op2 h2 _ _ _ hz]
    rfl
  refine ⟨?_, ?_, ?_⟩
  · intro hz
    obtain ⟨lv, rv, hlv, hrv, heq⟩ := calcExpression_cut A
      (MathExpression.construct (a ++ op1 :: (b ++ op2 :: c))) a (b ++ op2 :: c) op1 rfl h1
      (fun x hx => by rw [har x hx]; exact r1)
      (fun x hx => by
        rcases List.mem_append.mp hx with h | h
        · rw [hbr x h]; omega
        · rcases List.mem_cons.mp h with h | h
          · rw [h]; omega
          · rw [hcr x h]; omega)
      ha0 (by simp) st
    rw [leaf a har] at hlv
    rw [binary b c hb0 hc0 hbr hcr hz] at hrv
    have elv : lv = A.atof a := (Option.some.inj hlv).symm
    have erv : rv = applyOp A op2 (A.atof b) (A.atof c) := (Option.some.inj hrv).symm
    rw [heq, doTheCalculation_applyOp A op1 h1 _ _ _ (fun e => absurd e h1ne), elv, erv,
      leaf a har, binary b c hb0 hc0 hbr hcr hz]
    simp [Env.append, Env.initial]
  · intro hz
    obtain ⟨lv, rv, hlv, hrv, heq⟩ := calcExpression_cut A
      (MathExpression.construct ((a ++ op2 :: b) ++ op1 :: c)) (a ++ op2 :: b) c op1 rfl h1
      (fun x hx => by
        rcases List.mem_append.mp hx with h | h
        · rw [har x h]; exact r1
        · rcases List.mem_cons.mp h with h | h
          · rw [h]; exact hlt
          · rw [hbr x h]; exact r1)
      (fun x hx => by rw [hcr x hx]; omega)
      (by simp) hc0 st
    rw [binary a b ha0 hb0 har hbr hz] at hlv
    rw [leaf c hcr] at hrv
    have elv : lv = applyOp A op2 (A.atof a) (A.atof b) := (Option.some.inj hlv).symm
    have erv : rv = A.atof c := (Option.some.inj hrv).symm
    rw [heq, doTheCalculation_applyOp A op1 h1 _ _ _ (fun e => absurd e h1ne), elv, erv,
      leaf c hcr, binary a b ha0 hb0 har hbr hz]
    simp [Env.append, Env.initial]
  · simp [calcExpression, calcRecursive, calcRecursiveFuel, nextOperatorPosition,
      nextOperatorPositionLoop, find_first_of, supported_operations, substr,
      MathExpression.construct, MathExpression.get, doTheCalculation, exactArith, atofExact,
      readDigits, isspace, Env.initial]
    norm_num

/-- C14, at `a = 10`, `b = 3`, `c = 2`, `op1 = +`, `op2 = -` in exact arithmetic:
`10+3-2` is `10+(3-2)` and `10-3+2` is `(10-3)+2`. -/
theorem C14_binding_order_witness :
    isLiteral "10".toList = true ∧ isLiteral "3".toList = true ∧
    isLiteral "2".toList = true ∧ isOperator '+' ∧ isOperator '-' ∧
    opRank '+' < opRank '-' ∧
    calcExpression exactArith
        (MathExpression.construct ("10".toList ++ '+' :: ("3".toList ++ '-' :: "2".toList)))
        Env.initial =
      (some (applyOp exactArith '+' (exactArith.atof "10".toList)
          (applyOp exactArith '-' (exactArith.atof "3".toList) (exactArith.atof "2".toList))),
        { Env.initial with calls := Env.initial.calls ++
            [("10".toList, ['+'], "3".toList ++ '-' :: "2".toList),
             ("3".toList, ['-'], "2".toList)] }) ∧
    calcExpression exactArith
        (MathExpression.construct (("10".toList ++ '-' :: "3".toList) ++ '+' :: "2".toList))
        Env.initial =
      (some (applyOp exactArith '+'
          (applyOp exactArith '-' (exactArith.atof "10".toList) (exactArith.atof "3".toList))
          (exactArith.atof "2".toList)),
        { Env.initial with calls := Env.initial.calls ++
            [("10".toList ++ '-' :: "3".toList, ['+'], "2".toList),
             ("10".toList, ['-'], "3".toList)] }) :=
  ⟨by decide, by decide, by decide, Or.inl rfl, Or.inr (Or.inl rfl), by decide,
    (C14_binding_order exactArith "10".toList "3".toList "2".toList '+' '-' Env.initial
      (by decide) (by decide) (by decide) (Or.inl rfl) (Or.inr (Or.inl rfl))
      (by decide)).1 (fun e => absurd e (by decide)),
    (C14_binding_order exactArith "10".toList "3".toList "2".toList '+' '-' Env.initial
      (by decide) (by decide) (by decide) (Or.inl rfl) (Or.inr (Or.inl rfl))
      (by decide)).2.1 (fun e => absurd e (by decide))⟩

/-! ## C19 : well-formed expressions -/

/-- The two outcomes of the combination step on an operator. -/
theorem doTheCalculation_cases {α : Type} (A : Arith α) (c : Char) (hop : isOperator c)
    (l r : α) (st : Env) :
    (c = '/' ∧ A.eqZero r = true ∧
      doTheCalculation A [c] l r st =
        (some A.zero,
          { st with cout := st.cout ++ [divisionByZeroMessage],
                    illegal_calculation := true })) ∨
    ((c = '/' → A.eqZero r = false) ∧
      doTheCalculation A [c] l r st = (some (applyOp A c l r), st)) := by
  by_cases hz : c = '/' ∧ A.eqZero r = true
  · left
    obtain ⟨e, hz⟩ := hz
    subst e
    exact ⟨rfl, hz, by simp [doTheCalculation, hz]⟩
  · right
    have hz2 : c = '/' → A.eqZero r = false := by
      intro e
      cases h : A.eqZero r with
      | false => rfl
      | true => exact absurd ⟨e, h⟩ hz
    exact ⟨hz2, doTheCalculation_applyOp A c hop l r st hz2⟩

/-- One step of the evaluation of a string whose split has two non-empty sides. -/
theorem calcExpression_step {α : Type} (A : Arith α) (expr : MathExpression) (p : Nat)
    (hp : nextOperatorPosition expr.get = some p)
    (hl0 : expr.get.take p ≠ []) (hr0 : expr.get.drop (p + 1) ≠ []) (st : Env) :
    ∃ c lv rv, isOperator c ∧ expr.get = expr.get.take p ++ c :: expr.get.drop (p + 1) ∧
      (∀ d ∈ expr.get, opRank c ≤ opRank d) ∧ c ∉ expr.get.take p ∧
      (expr.get.take p).length + (expr.get.drop (p + 1)).length + 1 = expr.get.length ∧
      (calcExpression A { s := expr.get.take p } Env.initial).1 = some lv ∧
      (calcExpression A { s := expr.get.drop (p + 1) } Env.initial).1 = some rv ∧
      calcExpression A expr st =
        doTheCalculation A [c] lv rv
          (({ st with calls := st.calls ++
                [(expr.get.take p, [c], expr.get.drop (p + 1))] }.append
            (calcExpression A { s := expr.get.take p } Env.initial).2).append
            (calcExpression A { s := expr.get.drop (p + 1) } Env.initial).2) := by
  obtain ⟨c, hcop, hlt, hc, hmin, hfirst⟩ := nextOperatorPosition_rank _ p hp
  have hget : expr.get[p] = c := by
    rw [List.getElem?_eq_getElem hlt] at hc
    exact Option.some.inj hc
  have hdrop : expr.get.drop p = c :: expr.get.drop (p + 1) := by
    rw [← hget]; exact List.drop_eq_getElem_cons hlt
  have hopstr : (expr.get.drop p).take 1 = [c] := by rw [hdrop]; rfl
  have hsplit : expr.get = expr.get.take p ++ c :: expr.get.drop (p + 1) := by
    rw [← hdrop, List.take_append_drop]
  have hnotin : c ∉ expr.get.take p := by
    intro hmem
    obtain ⟨i, hi⟩ := List.mem_iff_getElem?.mp hmem
    rw [List.getElem?_take] at hi
    by_cases hip : i < p
    · rw [if_pos hip] at hi
      exact hfirst i hip hi
    · rw [if_neg hip] at hi
      cases hi
  obtain ⟨lv, rv, hlv, hrv, heq⟩ := calcRecursive_operands A
    { s := expr.get.take p } { s := expr.get.drop (p + 1) } [c]
    (by simpa using hl0) (by simpa using hr0) st
  refine ⟨c, lv, rv, hcop, hsplit, hmin, hnotin, ?_, hlv, hrv, ?_⟩
  · simp only [List.length_take, List.length_drop]; omega
  · rw [calcExpression_split A expr st p hp, hopstr, heq]
    rfl

/-- Cutting a well-formed string at an operator leaves two well-formed strings. -/
theorem WellFormed.pieces {l r : Str} {c : Char} (h : WellFormed (l ++ c :: r))
    (hc : isOperator c) : WellFormed l ∧ WellFormed r := by
  obtain ⟨-, hchars, hmal⟩ := h
  have hl0 : l ≠ [] := by
    intro e; subst e
    exact hmal (Or.inl ⟨c, r, rfl, hc⟩)
  have hr0 : r ≠ [] := by
    intro e; subst e
    exact hmal (Or.inr (Or.inl ⟨l, c, rfl, hc⟩))
  refine ⟨⟨hl0, fun x hx => hchars x (by simp [hx]), ?_⟩,
    ⟨hr0, fun x hx => hchars x (by simp [hx]), ?_⟩⟩
  · rintro (⟨x, t, rfl, hx⟩ | ⟨t, x, rfl, hx⟩ | ⟨u, x, y, v, rfl, hx, hy⟩)
    · exact hmal (Or.inl ⟨x, t ++ c :: r, rfl, hx⟩)
    · exact hmal (Or.inr (Or.inr ⟨t, x, c, r, by simp, hx, hc⟩))
    · exact hmal (Or.inr (Or.inr ⟨u, x, y, v ++ c :: r, by simp, hx, hy⟩))
  · rintro (⟨x, t, rfl, hx⟩ | ⟨t, x, rfl, hx⟩ | ⟨u, x, y, v, rfl, hx, hy⟩)
    · exact hmal (Or.inr (Or.inr ⟨l, c, x, t, rfl, hc, hx⟩))
    · exact hmal (Or.inr (Or.inl ⟨l ++ c :: t, x, by simp, hx⟩))
    · exact hmal (Or.inr (Or.inr ⟨l ++ c :: u, x, y, v, by simp, hx, hy⟩))

/-- The changes made by the evaluation of a well-formed string: no missing-operand
message, no call with an empty operand; the flag is set exactly when the
division-by-zero message was printed, and then some call with operator `/` has a right
operand whose value compares equal to zero; without `/` in the string the flag stays
clear. -/
theorem calcExpression_wellFormed {α : Type} (A : Arith α) :
    ∀ (k : Nat) (expr : MathExpression), expr.get.length ≤ k → WellFormed expr.get →
      missingOperandMessage ∉ (calcExpression A expr Env.initial).2.cout ∧
      (∀ l op r, (l, op, r) ∈ (calcExpression A expr Env.initial).2.calls →
        l ≠ [] ∧ r ≠ []) ∧
      ((calcExpression A expr Env.initial).2.illegal_calculation = true ↔
        divisionByZeroMessage ∈ (calcExpression A expr Env.initial).2.cout) ∧
      ((calcExpression A expr Env.initial).2.illegal_calculation = true →
        ∃ l r v, (l, ['/'], r) ∈ (calcExpression A expr Env.initial).2.calls ∧
          (calcExpression A { s := r } Env.initial).1 = some v ∧ A.eqZero v = true) ∧
      ('/' ∉ expr.get → (calcExpression A expr Env.initial).2.illegal_calculation = false) := by
  intro k
  induction k with
  | zero =>
    intro expr hk hwf
    exact absurd (List.length_eq_zero.mp (by omega)) hwf.1
  | succ k ih =>
    intro expr hk hwf
    cases hp : nextOperatorPosition expr.get with
    | none =>
      rw [calcExpression_leaf A expr _ hp]
      simp [Env.initial]
    | some p =>
      obtain ⟨c0, hc0, -, hsplit0, -⟩ := split_pieces expr.get p hp
      have hwf2 := hwf
      rw [hsplit0] at hwf2
      obtain ⟨hwl, hwr⟩ := hwf2.pieces hc0
      obtain ⟨c, lv, rv, hcop, hsplit, -, -, hlen, hlv, hrv, heq⟩ :=
        calcExpression_step A expr p hp hwl.1 hwr.1 Env.initial
      obtain ⟨l1, l2, l3, l4, l5⟩ := ih { s := expr.get.take p }
        (by simp only [MathExpression.get_mk]; omega) hwl
      obtain ⟨r1, r2, r3, r4, r5⟩ := ih { s := expr.get.drop (p + 1) }
        (by simp only [MathExpression.get_mk]; omega) hwr
      have hmsg : missingOperandMessage ≠ divisionByZeroMessage := by decide
      have i1 : Env.initial.calls = [] := rfl
      have i2 : Env.initial.cout = [] := rfl
      have i3 : Env.initial.illegal_calculation = false := rfl
      have hslash : '/' ∉ expr.get → c ≠ '/' ∧ '/' ∉ expr.get.take p ∧
          '/' ∉ expr.get.drop (p + 1) := by
        intro h
        rw [hsplit] at h
        simp only [List.mem_append, List.mem_cons, not_or] at h
        exact ⟨fun e => h.2.1 e.symm, h.1, h.2.2⟩
      rw [heq]
      rcases doTheCalculation_cases A c hcop lv rv
        ((Env.append
            { illegal_calculation := Env.initial.illegal_calculation,
              cout := Env.initial.cout,
              calls := Env.initial.calls ++
                [(expr.get.take p, [c], expr.get.drop (p + 1))] }
          (calcExpression A { s := expr.get.take p } Env.initial).2).append
          (calcExpression A { s := expr.get.drop (p + 1) } Env.initial).2)
        with ⟨hdiv, hz, hres⟩ | ⟨hz, hres⟩
      · rw [hres]
        subst hdiv
        refine ⟨?_, ?_, ?_, ?_, ?_⟩
        · simp [Env.append, i2, l1, r1, hmsg]
        · intro l op r hmem
          have hmem2 : (l, op, r) = (expr.get.take p, ['/'], expr.get.drop (p + 1)) ∨
              (l, op, r) ∈ (calcExpression A { s := expr.get.take p } Env.initial).2.calls ∨
              (l, op, r) ∈
                (calcExpression A { s := expr.get.drop (p + 1) } Env.initial).2.calls := by
            simpa [Env.append, i1, or_assoc] using hmem
          rcases hmem2 with e | hmem2 | hmem2
          · simp only [Prod.mk.injEq] at e
            rw [e.1, e.2.2]; exact ⟨hwl.1, hwr.1⟩
          · exact l2 l op r hmem2
          · exact r2 l op r hmem2
        · simp
        · intro _
          exact ⟨expr.get.take p, expr.get.drop (p + 1), rv,
            by simp [Env.append, i1], hrv, hz⟩
        · intro h
          exact absurd rfl (hslash h).1
      · rw [hres]
        refine ⟨?_, ?_, ?_, ?_, ?_⟩
        · simp [Env.append, i2, l1, r1]
        · intro l op r hmem
          have hmem2 : (l, op, r) = (expr.get.take p, [c], expr.get.drop (p + 1)) ∨
              (l, op, r) ∈ (calcExpression A { s := expr.get.take p } Env.initial).2.calls ∨
              (l, op, r) ∈
                (calcExpression A { s := expr.get.drop (p + 1) } Env.initial).2.calls := by
            simpa [Env.append, i1, or_assoc] using hmem
          rcases hmem2 with e | hmem2 | hmem2
          · simp only [Prod.mk.injEq] at e
            rw [e.1, e.2.2]; exact ⟨hwl.1, hwr.1⟩
          · exact l2 l op r hmem2
          · exact r2 l op r hmem2
        · simp only [Env.append, i2, i3, Bool.false_or, Bool.or_eq_true,
            List.nil_append, List.mem_append]
          rw [l3, r3]
        · intro hflag
          simp only [Env.append, i3, Bool.false_or, Bool.or_eq_true] at hflag
          rcases hflag with h | h
          · obtain ⟨l, r, v, hm, hv, hzv⟩ := l4 h
            exact ⟨l, r, v, by simp [Env.append, hm], hv, hzv⟩
          · obtain ⟨l, r, v, hm, hv, hzv⟩ := r4 h
            exact ⟨l, r, v, by simp [Env.append, hm], hv, hzv⟩
        · intro h
          obtain ⟨-, hl, hr⟩ := hslash h
          simp [Env.append, i3, l5 hl, r5 hr]

theorem hasAdjacentOperators_of_adjacent (u v : Str) (c d : Char)
    (hc : isOperator c) (hd : isOperator d) :
    hasAdjacentOperators (u ++ c :: d :: v) = true := by
  have hc2 := (isOperatorChar_iff c).mpr hc
  have hd2 := (isOperatorChar_iff d).mpr hd
  induction u with
  | nil => simp [hasAdjacentOperators, hc2, hd2]
  | cons a u ih =>
    cases u with
    | nil =>
      simp only [List.cons_append, List.nil_append, hasAdjacentOperators] at ih ⊢
      simp [ih]
    | cons b u2 =>
      simp only [List.cons_append, hasAdjacentOperators] at ih ⊢
      simp [ih]

/-- A string that passes the test is well-formed. -/
theorem wellFormed_of_check (str : Str) (h : wellFormedCheck str = true) :
    WellFormed str := by
  simp only [wellFormedCheck, Bool.and_eq_true, Bool.not_eq_true', List.all_eq_true,
    Bool.or_eq_true, decide_eq_true_eq, beq_iff_eq] at h
  obtain ⟨⟨⟨⟨hne, hchars⟩, hhead⟩, hlast⟩, hadj⟩ := h
  refine ⟨by intro e; subst e; simp at hne, ?_, ?_⟩
  · intro c hc
    rcases hchars c hc with (h1 | h1) | h1
    · exact Or.inl h1
    · exact Or.inr (Or.inl h1)
    · exact Or.inr (Or.inr ((isOperatorChar_iff c).mp h1))
  · rintro (⟨c, t, rfl, hc⟩ | ⟨t, c, rfl, hc⟩ | ⟨u, c, d, v, rfl, hc, hd⟩)
    · simp [(isOperatorChar_iff c).mpr hc] at hhead
    · simp [(isOperatorChar_iff c).mpr hc] at hlast
    · rw [hasAdjacentOperators_of_adjacent u v c d hc hd] at hadj
      cases hadj

/-- C19 : a well-formed expression never signals a missing operand: during its
evaluation the missing-operand message is not printed and no `calcRecursive` call has an
empty operand.  Started with the flag clear, the flag is set at the end only if the
division-by-zero message was printed and some call with operator `/` has a right operand
whose value compares equal to zero; and when the expression contains no `/` the flag
is clear at the end. -/
theorem C19_well_formed {α : Type} (A : Arith α) (expr : MathExpression) (st : Env)
    (hwf : WellFormed expr.get) :
    missingOperandMessage ∉ (calcExpression A expr st).2.cout.drop st.cout.length ∧
    (∀ l op r, (l, op, r) ∈ (calcExpression A expr st).2.calls.drop st.calls.length →
      l ≠ [] ∧ r ≠ []) ∧
    (st.illegal_calculation = false →
      (calcExpression A expr st).2.illegal_calculation = true →
      divisionByZeroMessage ∈ (calcExpression A expr st).2.cout.drop st.cout.length ∧
      ∃ l r v, (l, ['/'], r) ∈ (calcExpression A expr st).2.calls.drop st.calls.length ∧
        (calcExpression A { s := r } Env.initial).1 = some v ∧ A.eqZero v = true) ∧
    ('/' ∉ expr.get → st.illegal_calculation = false →
      (calcExpression A expr st).2.illegal_calculation = false) := by
  obtain ⟨h1, h2, h3, h4, h5⟩ := calcExpression_wellFormed A _ expr (le_refl _) hwf
  rw [calcExpression_from_initial A expr st]
  simp only [Env.append, List.drop_left]
  refine ⟨h1, h2, ?_, ?_⟩
  · intro hst hflag
    rw [hst, Bool.false_or] at hflag
    exact ⟨h3.mp hflag, h4 hflag⟩
  · intro hno hst
    rw [hst, h5 hno]
    rfl

/-- C19, at the well-formed expression `5/0` from the cleared state. -/
theorem C19_well_formed_witness :
    WellFormed (MathExpression.construct "5/0".toList).get ∧
    missingOperandMessage ∉
      (calcExpression exactArith (MathExpression.construct "5/0".toList) Env.initial).2.cout ∧
    ∃ l r v,
      (l, ['/'], r) ∈
        (calcExpression exactArith (MathExpression.construct "5/0".toList)
          Env.initial).2.calls ∧
      (calcExpression exactArith { s := r } Env.initial).1 = some v ∧
      exactArith.eqZero v = true := by
  have hwf : WellFormed (MathExpression.construct "5/0".toList).get :=
    wellFormed_of_check _ (by decide)
  have h := C19_well_formed exactArith (MathExpression.construct "5/0".toList) Env.initial hwf
  have hflag : (calcExpression exactArith (MathExpression.construct "5/0".toList)
      Env.initial).2.illegal_calculation = true := by
    simp [calcExpression, calcRecursive, calcRecursiveFuel, nextOperatorPosition,
      nextOperatorPositionLoop, find_first_of, supported_operations, substr,
      MathExpression.construct, MathExpression.get, doTheCalculation, exactArith, atofExact,
      readDigits, isspace, Env.initial]
  exact ⟨hwf, h.1, (h.2.2.1 rfl hflag).2⟩

/-! ## C20 : refinement of the right-grouping reference evaluator -/

theorem refCut_absent {α : Type} (lower : Str → α) (f : α → α → α) (c : Char) :
    ∀ (str acc : Str), c ∉ str → refCut lower f c acc str = lower (acc ++ str) := by
  intro str
  induction str with
  | nil => intro acc _; simp [refCut]
  | cons x xs ih =>
    intro acc h
    have hx : x ≠ c := fun e => h (by simp [e])
    have hxs : c ∉ xs := fun e => h (by simp [e])
    simp only [refCut, hx, if_false]
    rw [ih (acc ++ [x]) hxs]
    simp

theorem refCut_cut {α : Type} (lower : Str → α) (f : α → α → α) (c : Char) :
    ∀ (l acc r : Str), c ∉ l →
      refCut lower f c acc (l ++ c :: r) = f (lower (acc ++ l)) (refCut lower f c [] r) := by
  intro l
  induction l with
  | nil => intro acc r _; simp [refCut]
  | cons x xs ih =>
    intro acc r h
    have hx : x ≠ c := fun e => h (by simp [e])
    have hxs : c ∉ xs := fun e => h (by simp [e])
    simp only [List.cons_append, refCut, hx, if_false]
    change refCut lower f c (acc ++ [x]) (xs ++ c :: r) = _
    rw [ih (acc ++ [x]) r hxs]
    simp

/-- A level whose operator does not occur passes the string to the next level. -/
theorem refLevel_absent {α : Type} (A : Arith α) (c : Char) (ops : List Char) (str : Str)
    (h : c ∉ str) : refLevel A (c :: ops) str = refLevel A ops str := by
  simp only [refLevel]
  rw [refCut_absent _ _ _ str [] h]
  simp

/-- A level cuts the string at the first occurrence of its operator: the head goes to
the next level, the rest to the same level. -/
theorem refLevel_cut {α : Type} (A : Arith α) (c : Char) (ops : List Char) (l r : Str)
    (h : c ∉ l) :
    refLevel A (c :: ops) (l ++ c :: r) =
      applyOp A c (refLevel A ops l) (refLevel A (c :: ops) r) := by
  simp only [refLevel]
  rw [refCut_cut _ _ _ l [] r h]
  simp

theorem not_mem_of_rank (str : Str) (c d : Char) (h : ∀ x ∈ str, opRank c ≤ opRank x)
    (hd : opRank d < opRank c) : d ∉ str := by
  intro hmem
  have := h d hmem
  omega

/-- The reference evaluator on a string cut at the leftmost occurrence of its operator
of least rank. -/
theorem referenceEvaluator_cut {α : Type} (A : Arith α) (l r : Str) (c : Char)
    (hop : isOperator c) (hmin : ∀ x ∈ l ++ c :: r, opRank c ≤ opRank x) (hl : c ∉ l) :
    referenceEvaluator A (l ++ c :: r) =
      applyOp A c (referenceEvaluator A l) (referenceEvaluator A r) := by
  have hminl : ∀ x ∈ l, opRank c ≤ opRank x := fun x hx => hmin x (by simp [hx])
  have hminr : ∀ x ∈ r, opRank c ≤ opRank x := fun x hx => hmin x (by simp [hx])
  unfold referenceEvaluator
  rcases hop with e | e | e | e <;> subst e
  · rw [refLevel_cut A _ _ l r hl, refLevel_absent A _ _ l hl]
  · have p1 := not_mem_of_rank _ '-' '+' hmin (by decide)
    have p1l := not_mem_of_rank _ '-' '+' hminl (by decide)
    have p1r := not_mem_of_rank _ '-' '+' hminr (by decide)
    rw [refLevel_absent A _ _ _ p1, refLevel_cut A _ _ l r hl,
      refLevel_absent A _ _ l p1l, refLevel_absent A _ _ l hl,
      refLevel_absent A _ _ r p1r]
  · have p1 := not_mem_of_rank _ '*' '+' hmin (by decide)
    have p1l := not_mem_of_rank _ '*' '+' hminl (by decide)
    have p1r := not_mem_of_rank _ '*' '+' hminr (by decide)
    have p2 := not_mem_of_rank _ '*' '-' hmin (by decide)
    have p2l := not_mem_of_rank _ '*' '-' hminl (by decide)
    have p2r := not_mem_of_rank _ '*' '-' hminr (by decide)
    rw [refLevel_absent A _ _ _ p1, refLevel_absent A _ _ _ p2, refLevel_cut A _ _ l r hl,
      refLevel_absent A _ _ l p1l, refLevel_absent A _ _ l p2l, refLevel_absent A _ _ l hl,
      refLevel_absent A _ _ r p1r, refLevel_absent A _ _ r p2r]
  · have p1 := not_mem_of_rank _ '/' '+' hmin (by decide)
    have p1l := not_mem_of_rank _ '/' '+' hminl (by decide)
    have p1r := not_mem_of_rank _ '/' '+' hminr (by decide)
    have p2 := not_mem_of_rank _ '/' '-' hmin (by decide)
    have p2l := not_mem_of_rank _ '/' '-' hminl (by decide)
    have p2r := not_mem_of_rank _ '/' '-' hminr (by decide)
    have p3 := not_mem_of_rank _ '/' '*' hmin (by decide)
    have p3l := not_mem_of_rank _ '/' '*' hminl (by decide)
    have p3r := not_mem_of_rank _ '/' '*' hminr (by decide)
    rw [refLevel_absent A _ _ _ p1, refLevel_absent A _ _ _ p2, refLevel_absent A _ _ _ p3,
      refLevel_cut A _ _ l r hl,
      refLevel_absent A _ _ l p1l, refLevel_absent A _ _ l p2l, refLevel_absent A _ _ l p3l,
      refLevel_absent A _ _ l hl,
      refLevel_absent A _ _ r p1r, refLevel_absent A _ _ r p2r, refLevel_absent A _ _ r p3r]

/-- The reference evaluator reads an operator-free string with `atof`. -/
theorem referenceEvaluator_leaf {α : Type} (A : Arith α) (str : Str)
    (h : ∀ c ∈ str, c ≠ '+' ∧ c ≠ '-' ∧ c ≠ '*' ∧ c ≠ '/') :
    referenceEvaluator A str = A.atof str := by
  have a1 : '+' ∉ str := fun hm => (h _ hm).1 rfl
  have a2 : '-' ∉ str := fun hm => (h _ hm).2.1 rfl
  have a3 : '*' ∉ str := fun hm => (h _ hm).2.2.1 rfl
  have a4 : '/' ∉ str := fun hm => (h _ hm).2.2.2 rfl
  unfold referenceEvaluator
  rw [refLevel_absent A _ _ _ a1, refLevel_absent A _ _ _ a2, refLevel_absent A _ _ _ a3,
    refLevel_absent A _ _ _ a4]
  rfl

/-- On a well-formed string without a signalled division by zero the evaluator returns
the value of the reference evaluator. -/
theorem calcExpression_refines {α : Type} (A : Arith α) :
    ∀ (k : Nat) (expr : MathExpression), expr.get.length ≤ k → WellFormed expr.get →
      divisionByZeroMessage ∉ (calcExpression A expr Env.initial).2.cout →
      (calcExpression A expr Env.initial).1 = some (referenceEvaluator A expr.get) := by
  intro k
  induction k with
  | zero =>
    intro expr hk hwf
    exact absurd (List.length_eq_zero.mp (by omega)) hwf.1
  | succ k ih =>
    intro expr hk hwf hnodiv
    cases hp : nextOperatorPosition expr.get with
    | none =>
      rw [calcExpression_leaf A expr _ hp,
        referenceEvaluator_leaf A _ ((nextOperatorPosition_eq_none _).mp hp)]
    | some p =>
      obtain ⟨c0, hc0, -, hsplit0, -⟩ := split_pieces expr.get p hp
      have hwf2 := hwf
      rw [hsplit0] at hwf2
      obtain ⟨hwl, hwr⟩ := hwf2.pieces hc0
      obtain ⟨c, lv, rv, hcop, hsplit, hmin, hnotin, hlen, hlv, hrv, heq⟩ :=
        calcExpression_step A expr p hp hwl.1 hwr.1 Env.initial
      have i2 : Env.initial.cout = [] := rfl
      rw [heq] at hnodiv ⊢
      rcases doTheCalculation_cases A c hcop lv rv
        ((Env.append
            { illegal_calculation := Env.initial.illegal_calculation,
              cout := Env.initial.cout,
              calls := Env.initial.calls ++
                [(expr.get.take p, [c], expr.get.drop (p + 1))] }
          (calcExpression A { s := expr.get.take p } Env.initial).2).append
          (calcExpression A { s := expr.get.drop (p + 1) } Env.initial).2)
        with ⟨hdiv, hz, hres⟩ | ⟨hz, hres⟩
      · rw [hres] at hnodiv
        exact absurd (by simp) hnodiv
      · rw [hres] at hnodiv ⊢
        have hnl : divisionByZeroMessage ∉
            (calcExpression A { s := expr.get.take p } Env.initial).2.cout := by
          intro hm; exact hnodiv (by simp [Env.append, hm])
        have hnr : divisionByZeroMessage ∉
            (calcExpression A { s := expr.get.drop (p + 1) } Env.initial).2.cout := by
          intro hm; exact hnodiv (by simp [Env.append, hm])
        have hl := ih { s := expr.get.take p }
          (by simp only [MathExpression.get_mk]; omega) hwl hnl
        have hr := ih { s := expr.get.drop (p + 1) }
          (by simp only [MathExpression.get_mk]; omega) hwr hnr
        rw [hlv] at hl
        rw [hrv] at hr
        simp only [MathExpression.get_mk] at hl hr
        have hmin2 := hmin
        rw [hsplit] at hmin2
        have href := referenceEvaluator_cut A (expr.get.take p) (expr.get.drop (p + 1)) c
          hcop hmin2 hnotin
        rw [← hsplit] at href
        rw [href, ← Option.some.inj hl, ← Option.some.inj hr]

/-- The evaluation of `x op y` for operator-free non-empty `x` and `y`, away from a
division by zero. -/
theorem calcExpression_binary_applyOp {α : Type} (A : Arith α) (x y : Str) (op : Char)
    (hop : isOperator op) (hx0 : x ≠ []) (hy0 : y ≠ []) (hx : ∀ z ∈ x, opRank z = 4)
    (hy : ∀ z ∈ y, opRank z = 4) (hz : op = '/' → A.eqZero (A.atof y) = false) :
    calcExpression A { s := x ++ op :: y } Env.initial =
      (some (applyOp A op (A.atof x) (A.atof y)),
        { Env.initial with calls := [(x, [op], y)] }) := by
  rw [calcExpression_binary A x y op hop (operator_free_of_rank x hx)
    (operator_free_of_rank y hy) hx0 hy0 { s := x ++ op :: y } rfl,
    doTheCalculation_applyOp A op hop _ _ _ hz]
  rfl

/-- A chain `a op b op c` of one operator groups to the right. -/
theorem calcExpression_chain {α : Type} (A : Arith α) (a b c : Str) (op : Char) (st : Env)
    (ha : isLiteral a = true) (hb : isLiteral b = true) (hc : isLiteral c = true)
    (hop : isOperator op)
    (hz : op = '/' → A.eqZero (A.atof c) = false ∧
      A.eqZero (applyOp A op (A.atof b) (A.atof c)) = false) :
    (calcExpression A (MathExpression.construct (a ++ op :: (b ++ op :: c))) st).1 =
      some (applyOp A op (A.atof a) (applyOp A op (A.atof b) (A.atof c))) := by
  obtain ⟨ha0, har⟩ := isLiteral_rank a ha
  obtain ⟨hb0, hbr⟩ := isLiteral_rank b hb
  obtain ⟨hc0, hcr⟩ := isLiteral_rank c hc
  have r1 : opRank op < 4 := (opRank_lt_four_iff op).mpr hop
  obtain ⟨lv, rv, hlv, hrv, heq⟩ := calcExpression_cut A
    (MathExpression.construct (a ++ op :: (b ++ op :: c))) a (b ++ op :: c) op rfl hop
    (fun x hx => by rw [har x hx]; exact r1)
    (fun x hx => by
      rcases List.mem_append.mp hx with h | h
      · rw [hbr x h]; omega
      · rcases List.mem_cons.mp h with h | h
        · rw [h]
        · rw [hcr x h]; omega)
    ha0 (by simp) st
  rw [calcExpression_leaf A { s := a } _
    ((nextOperatorPosition_eq_none a).mpr (operator_free_of_rank a har))] at hlv
  rw [calcExpression_binary_applyOp A b c op hop hb0 hc0 hbr hcr (fun e => (hz e).1)] at hrv
  have elv : lv = A.atof a := (Option.some.inj hlv).symm
  have erv : rv = applyOp A op (A.atof b) (A.atof c) := (Option.some.inj hrv).symm
  rw [heq, doTheCalculation_applyOp A op hop _ _ _ (fun e => by rw [erv]; exact (hz e).2),
    elv, erv]

/-- C20 : on every well-formed expression for which no division by zero is signalled
(the division-by-zero message is not printed by the run from the cleared state;
for a well-formed expression this is the same as the flag staying clear),
`calcExpression` returns the value of `referenceEvaluator`, from every starting state.
The reference evaluator is the four-level grammar that groups to the right: a level
whose operator is absent hands the string to the next level, and otherwise cuts it at
the first occurrence of its operator into a head for the next level and a rest for the
same level.  Consequently a chain `a op b op c` of one operator evaluates to
`a op (b op c)`; `10-3-2` gives 9 and `8/4/2` gives 4, in the code and in the reference
evaluator. -/
theorem C20_refines_reference {α : Type} (A : Arith α) (expr : MathExpression) (st : Env)
    (hwf : WellFormed expr.get)
    (hnodiv : divisionByZeroMessage ∉ (calcExpression A expr Env.initial).2.cout) :
    (calcExpression A expr st).1 = some (referenceEvaluator A expr.get) ∧
    (∀ (c : Char) (ops : List Char) (str : Str), c ∉ str →
      refLevel A (c :: ops) str = refLevel A ops str) ∧
    (∀ (c : Char) (ops : List Char) (l r : Str), c ∉ l →
      refLevel A (c :: ops) (l ++ c :: r) =
        applyOp A c (refLevel A ops l) (refLevel A (c :: ops) r)) ∧
    (∀ (a b c : Str) (op : Char), isLiteral a = true → isLiteral b = true →
      isLiteral c = true → isOperator op →
      (op = '/' → A.eqZero (A.atof c) = false ∧
        A.eqZero (applyOp A op (A.atof b) (A.atof c)) = false) →
      (calcExpression A (MathExpression.construct (a ++ op :: (b ++ op :: c))) st).1 =
        some (applyOp A op (A.atof a) (applyOp A op (A.atof b) (A.atof c)))) ∧
    (calcExpression exactArith (MathExpression.construct "10-3-2".toList) Env.initial).1 =
      some 9 ∧
    referenceEvaluator exactArith "10-3-2".toList = 9 ∧
    (calcExpression exactArith (MathExpression.construct "8/4/2".toList) Env.initial).1 =
      some 4 ∧
    referenceEvaluator exactArith "8/4/2".toList = 4 := by
  refine ⟨?_, fun c ops str h => refLevel_absent A c ops str h,
    fun c ops l r h => refLevel_cut A c ops l r h,
    fun a b c op ha hb hc hop hz => calcExpression_chain A a b c op st ha hb hc hop hz,
    ?_, ?_, ?_, ?_⟩
  · rw [calcExpression_from_initial A expr st]
    exact calcExpression_refines A _ expr (le_refl _) hwf hnodiv
  · simp [calcExpression, calcRecursive, calcRecursiveFuel, nextOperatorPosition,
      nextOperatorPositionLoop, find_first_of, supported_operations, substr,
      MathExpression.construct, MathExpression.get, doTheCalculation, exactArith, atofExact,
      readDigits, isspace, Env.initial]
    norm_num
  · simp [referenceEvaluator, refLevel, refCut, applyOp, exactArith, atofExact, readDigits,
      isspace]
    norm_num
  · simp [calcExpression, calcRecursive, calcRecursiveFuel, nextOperatorPosition,
      nextOperatorPositionLoop, find_first_of, supported_operations, substr,
      MathExpression.construct, MathExpression.get, doTheCalculation, exactArith, atofExact,
      readDigits, isspace, Env.initial]
    norm_num
  · simp [referenceEvaluator, refLevel, refCut, applyOp, exactArith, atofExact, readDigits,
      isspace]
    norm_num

/-- C20, at the well-formed expression `10-3-2` in exact arithmetic. -/
theorem C20_refines_reference_witness :
    WellFormed (MathExpression.construct "10-3-2".toList).get ∧
    divisionByZeroMessage ∉
      (calcExpression exactArith (MathExpression.construct "10-3-2".toList)
        Env.initial).2.cout ∧
    (calcExpression exactArith (MathExpression.construct "10-3-2".toList) Env.initial).1 =
      some (referenceEvaluator exactArith (MathExpression.construct "10-3-2".toList).get) := by
  have hwf : WellFormed (MathExpression.construct "10-3-2".toList).get :=
    wellFormed_of_check _ (by decide)
  have hnodiv : divisionByZeroMessage ∉
      (calcExpression exactArith (MathExpression.construct "10-3-2".toList)
        Env.initial).2.cout := by
    simp [calcExpression, calcRecursive, calcRecursiveFuel, nextOperatorPosition,
      nextOperatorPositionLoop, find_first_of, supported_operations, substr,
      MathExpression.construct, MathExpression.get, doTheCalculation, exactArith, atofExact,
      readDigits, isspace, Env.initial]
  exact ⟨hwf, hnodiv,
    (C20_refines_reference exactArith (MathExpression.construct "10-3-2".toList)
      Env.initial hwf hnodiv).1⟩

end Calculator
